import Mathlib

/-!
Program msweep: the game-state engine of a terminal minesweeper

A shallow embedding of `src/msweep.c`.  C `int` and `time_t` values are
`Int`; the cell array `bd->data` is a `List Data` indexed by `w*y + x`;
`rand()` is a list of the values it returns, consumed one per call; the
reading of the clock `time(NULL)` is a parameter; `stdin` is the list of the
bytes still to be read.  Terminal output
(`bel`, `board_gotocursor`) has no effect on the board and is left out.
The numbers the board holds (coordinates, indices, counts, counters) are
bounded by the number of cells `w*h`, which fits an `int` for a board that
was allocated, so no operation on them overflows.  Where a step count or a
repeat count can reach `INT_MAX` the overflow is explicit: the operation
returns `none`.

The first part holds the definitions: the embedding of the C functions,
then the notions the properties are stated with.  The second part holds
the lemmas and, at the end, one theorem per claim.
-/

namespace Msweep

/-- The four cursor directions (`enum Direction`). -/
inductive Direction where
  | UP
  | RIGHT
  | DOWN
  | LEFT
deriving DecidableEq

/-- One cell (`struct Data`); `open_` is the C field `open`. -/
structure Data where
  open_ : Bool
  bomb : Bool
  flag : Bool
  count : Int
deriving DecidableEq

/-- The cell written by `data_init`. -/
def data_init : Data := ⟨false, false, false, 0⟩

/-- The board (`struct Board`); `startTime = -1` means "not yet generated". -/
structure Board where
  w : Int
  h : Int
  data : List Data
  curx : Int
  cury : Int
  nbombs : Int
  nflags : Int
  nopen : Int
  startTime : Int
deriving DecidableEq

/-- Function `board_make`: a fresh board of `w*h` initialised cells. -/
def board_make (w h nbombs : Int) : Board :=
  { w := w, h := h, data := List.replicate (w * h).toNat data_init,
    curx := 0, cury := 0, nbombs := nbombs, nflags := 0, nopen := 0,
    startTime := -1 }

/-- Read `bd->data[i]`.  An index outside the array (undefined in C) reads
    as an initialised cell. -/
def Board.cell (bd : Board) (i : Int) : Data :=
  if 0 ≤ i then bd.data.getD i.toNat data_init else data_init

/-- Write `bd->data[i] = d`.  An index outside the array (undefined in C)
    writes nothing. -/
def Board.setCell (bd : Board) (i : Int) (d : Data) : Board :=
  if 0 ≤ i then { bd with data := bd.data.set i.toNat d } else bd

/-- One iteration of the loop body of `board_shiftcursor`: `none` stands for
    the branch `i = ntimes`, taken when the cursor cannot move. -/
def shift_step (bd : Board) (dir : Direction) : Option Board :=
  match dir with
  | Direction.UP => if bd.cury > 0 then some { bd with cury := bd.cury - 1 } else none
  | Direction.RIGHT => if bd.curx < bd.w - 1 then some { bd with curx := bd.curx + 1 } else none
  | Direction.DOWN => if bd.cury < bd.h - 1 then some { bd with cury := bd.cury + 1 } else none
  | Direction.LEFT => if bd.curx > 0 then some { bd with curx := bd.curx - 1 } else none

/-- Modelled from the spec: the constant `INT_MAX` of `<limits.h>` ("the
    platform's maximum representable step count"), which the source uses and
    does not define; the value is that of a 32-bit `int`. -/
def INT_MAX : Int := 2147483647

/-- The `for (i = 0; i < ntimes; i++)` loop of `board_shiftcursor`, with loop
    counter `i` and at most `k` iterations left.  A step that cannot move sets
    `i = ntimes`; the `i++` that follows ends the loop, unless `ntimes` is
    `INT_MAX`: then it overflows, which is undefined in C (with wrap-around
    the loop would start over and never end), and the result is `none`. -/
def shift_loop (dir : Direction) (ntimes : Int) : Nat → Int → Board → Option Board
  | 0, _, bd => some bd
  | k + 1, i, bd =>
    if i < ntimes then
      match shift_step bd dir with
      | some bd1 => shift_loop dir ntimes k (i + 1) bd1
      | none => if ntimes < INT_MAX then some bd else none
    else some bd

/-- Function `board_shiftcursor`: move the cursor `ntimes` steps in direction
    `dir`; the loop runs at most `ntimes` times. -/
def board_shiftcursor (bd : Board) (dir : Direction) (ntimes : Int) : Option Board :=
  shift_loop dir ntimes ntimes.toNat 0 bd

/-- Function `board_flag`: toggle the flag at the cursor, unless the cell is open. -/
def board_flag (bd : Board) : Board :=
  let i := bd.w * bd.cury + bd.curx
  let d := bd.cell i
  if d.open_ then bd
  else
    let f := !d.flag
    { bd.setCell i { d with flag := f } with
      nflags := bd.nflags + (2 * (if f then 1 else 0) - 1) }

/-- The first three statements of `board_flood`: open the cell, clear its
    flag, count it. -/
def flood_open (bd : Board) (i : Int) : Board :=
  { bd.setCell i { bd.cell i with open_ := true, flag := false } with
    nopen := bd.nopen + 1 }

/-- One guarded recursive call of `board_flood`: `if (g) { if (!d->open) rec }`. -/
def flood_visit (rec : Board → Option Board) (g : Bool) (i : Int) (bd : Board) :
    Option Board :=
  if g then (if (bd.cell i).open_ then some bd else rec bd) else some bd

/-- Function `board_flood` with a bound `fuel` on the recursion depth; `none` when
    the bound is reached. -/
def board_flood_aux : Nat → Board → Int → Int → Option Board
  | 0, _, _, _ => none
  | fuel + 1, bd, x, y =>
    let bd0 := flood_open bd (bd.w * y + x)
    if (bd0.cell (bd0.w * y + x)).count ≠ 0 then some bd0
    else
      (flood_visit (fun b => board_flood_aux fuel b (x - 1) y) (decide (x > 0))
          (bd0.w * y + x - 1) bd0).bind fun bd1 =>
      (flood_visit (fun b => board_flood_aux fuel b x (y - 1)) (decide (y > 0))
          (bd1.w * (y - 1) + x) bd1).bind fun bd2 =>
      (flood_visit (fun b => board_flood_aux fuel b (x + 1) y) (decide (x < bd2.w - 1))
          (bd2.w * y + x + 1) bd2).bind fun bd3 =>
      flood_visit (fun b => board_flood_aux fuel b x (y + 1)) (decide (y < bd3.h - 1))
          (bd3.w * (y + 1) + x) bd3

/-- Function `board_flood`: the recursion depth never exceeds the number of cells
    (see `board_flood_aux_total`), which is the bound used here. -/
def board_flood (bd : Board) (x y : Int) : Option Board :=
  board_flood_aux bd.data.length bd x y

/-- The values `lo, lo+1, ..., hi` of a `for (d = lo; d <= hi; d++)` loop. -/
def intRange (lo hi : Int) : List Int :=
  (List.range (hi - lo + 1).toNat).map fun (k : Nat) => lo + (k : Int)

/-- Body of the inner `for` loops of `board_fill` at offset `(dx, dy)`. -/
def fill_bump (pos dy : Int) (bd : Board) (dx : Int) : Board :=
  if dx = 0 ∧ dy = 0 then bd
  else
    let j := pos + bd.w * dy + dx
    if (bd.cell j).bomb then bd
    else bd.setCell j { bd.cell j with count := (bd.cell j).count + 1 }

/-- Body of the `while` loop of `board_fill` for an accepted `pos`: make the
    cell a mine and bump the counts of its neighbours that are not mines. -/
def fill_place (bd : Board) (pos : Int) : Board :=
  let w := bd.w
  let h := bd.h
  let bd1 := bd.setCell pos { bd.cell pos with bomb := true, count := 0 }
  (intRange (if pos < w then 0 else -1) (if pos ≥ w * (h - 1) then 0 else 1)).foldl
    (fun b dy =>
      (intRange (if pos % w = 0 then 0 else -1) (if pos % w = w - 1 then 0 else 1)).foldl
        (fill_bump pos dy) b)
    bd1

/-- The `while (n > 0)` loop of `board_fill`; each iteration takes one value
    of `rand()` (never negative) from `draws`.  `none` when the draws run out
    before `n` reaches 0.  For a dividend that is not negative C's `%`
    agrees with `Int.emod`. -/
def fill_loop (chosenpos : Int) : List Nat → Int → Board → Option Board
  | [], n, bd => if n > 0 then none else some bd
  | r :: rest, n, bd =>
    if n > 0 then
      let pos := (r : Int) % (bd.w * bd.h)
      if pos = chosenpos ∨ (bd.cell pos).bomb then fill_loop chosenpos rest n bd
      else fill_loop chosenpos rest (n - 1) (fill_place bd pos)
    else some bd

/-- Function `board_fill`: place `nbombs` mines, none on `(x, y)`; `now` is the value
    of `time(NULL)`. -/
def board_fill (bd : Board) (x y : Int) (draws : List Nat) (now : Int) : Option Board :=
  (fill_loop (bd.w * y + x) draws bd.nbombs bd).map fun b => { b with startTime := now }

/-- Function `board_open`: open the cell at the cursor.  The result pairs the C return
    value (`true`: a mine was hit) with the board afterwards. -/
def board_open (bd : Board) (draws : List Nat) (now : Int) : Option (Bool × Board) :=
  let i := bd.w * bd.cury + bd.curx
  (if bd.startTime = -1 then board_fill bd bd.curx bd.cury draws now else some bd).bind
    fun bd1 =>
      let data := bd1.cell i
      if data.flag || data.open_ then some (false, bd1)
      else if data.bomb then some (true, bd1)
      else (board_flood bd1 bd1.curx bd1.cury).map fun b => (false, b)

/-- Function `board_win`: the mines are placed and `nopen` is the number of
    cells that are not mines. -/
def board_win (bd : Board) : Bool :=
  decide (bd.startTime ≠ -1 ∧ bd.nopen = bd.w * bd.h - bd.nbombs)

/-- The kinds of key (`enum Keytype`). -/
inductive Keytype where
  | KARROW
  | KCHAR
  | KNUM
deriving DecidableEq

/-- A decoded key (`struct Key`).  A `char` is held as the value 0..255 of the
    byte read; the comparisons that `getkey` makes have the same outcome for
    a signed and for an unsigned `char`.  The signedness shows in one place,
    the `ungetc` of `getkey`, where `char` is taken as signed (as on x86). -/
structure Key where
  type : Keytype
  ch : Nat
  dir : Direction
  num : Nat
deriving DecidableEq

/-- The key left by `memset(key, 0, sizeof(Key))`. -/
def key_zero : Key := ⟨Keytype.KARROW, 0, Direction.UP, 0⟩

/-- The loop `while (c < 64 || c > 126) c = getchar();` of `getkey`, on the
    bytes still to be read and the current `c`: the bytes left when the loop
    ends, `none` when the input runs out first (the read blocks). -/
def skip_unknown : List Nat → Nat → Option (List Nat)
  | [], c => if c < 64 ∨ c > 126 then none else some []
  | c1 :: s1, c => if c < 64 ∨ c > 126 then skip_unknown s1 c1 else some (c1 :: s1)

/-- Function `getkey` on the bytes still to be read from `stdin`, with a bound
    `fuel` on the depth of the recursion ("just try again").  The result is
    the key and the bytes left.  The call `ungetc(c, stdin)` puts the byte
    back in front, except for the byte 255: held in a signed `char` it is
    `-1`, which is `EOF`, and `ungetc(EOF, stdin)` fails and pushes nothing
    back.  The result `none` stands for a read that blocks because the input
    has run out, or for the bound being reached. -/
def getkey_aux : Nat → List Nat → Option (Key × List Nat)
  | 0, _ => none
  | fuel + 1, s =>
    match s with
    | [] => none
    | c :: s1 =>
      if c ≥ 48 ∧ c ≤ 57 then
        some ({ key_zero with type := Keytype.KNUM, num := c - 48 }, s1)
      else if c ≠ 27 then
        if c = 104 then some ({ key_zero with type := Keytype.KARROW, dir := Direction.LEFT }, s1)
        else if c = 106 then
          some ({ key_zero with type := Keytype.KARROW, dir := Direction.DOWN }, s1)
        else if c = 107 then some ({ key_zero with type := Keytype.KARROW, dir := Direction.UP }, s1)
        else if c = 108 then
          some ({ key_zero with type := Keytype.KARROW, dir := Direction.RIGHT }, s1)
        else some ({ key_zero with type := Keytype.KCHAR, ch := c }, s1)
      else
        match s1 with
        | [] => none
        | c2 :: s2 =>
          if c2 ≠ 91 then
            some ({ key_zero with type := Keytype.KCHAR, ch := c2 },
              if c2 = 255 then s2 else c2 :: s2)
          else
            match s2 with
            | [] => none
            | c3 :: s3 =>
              if c3 = 65 then
                some ({ key_zero with type := Keytype.KARROW, dir := Direction.UP }, s3)
              else if c3 = 66 then
                some ({ key_zero with type := Keytype.KARROW, dir := Direction.DOWN }, s3)
              else if c3 = 67 then
                some ({ key_zero with type := Keytype.KARROW, dir := Direction.RIGHT }, s3)
              else if c3 = 68 then
                some ({ key_zero with type := Keytype.KARROW, dir := Direction.LEFT }, s3)
              else (skip_unknown s3 c3).bind fun s4 => getkey_aux fuel s4

/-- Function `getkey`: every recursive call comes after at least three bytes
    were read, so the recursion is never deeper than the number of bytes
    (see `getkey_aux_stable`). -/
def getkey (s : List Nat) : Option (Key × List Nat) :=
  getkey_aux (s.length + 1) s

/-- The value of an `int` expression: `none` when it lies outside the range
    of `int` (signed overflow, undefined in C). -/
def int_checked (z : Int) : Option Int :=
  if -INT_MAX - 1 ≤ z ∧ z ≤ INT_MAX then some z else none

/-- The variables `repeat` and `have_repeat_num` of `main`. -/
structure Rep where
  repeat_ : Int
  have_repeat_num : Bool
deriving DecidableEq

/-- The `case KNUM` of the `switch` in `main`, for the digit `num`: the
    repeat state afterwards and whether `bel()` was called; `none` if the
    arithmetic overflows.  The operands of `/` are not negative, so C's
    division is `Int.ediv`. -/
def main_knum (r : Rep) (num : Nat) : Option (Rep × Bool) :=
  if r.have_repeat_num then
    if r.repeat_ ≥ (INT_MAX - (num : Int)) / 10 then some (⟨1, false⟩, true)
    else
      (int_checked (10 * r.repeat_)).bind fun p =>
        (int_checked (p + (num : Int))).map fun q => (⟨q, true⟩, false)
  else if num ≥ 1 then some (⟨(num : Int), true⟩, false)
  else some (r, false)

/-- The `case KARROW` of the `switch` in `main`: move by the repeat count and
    reset it. -/
def main_karrow (bd : Board) (r : Rep) (dir : Direction) : Option (Board × Rep) :=
  (board_shiftcursor bd dir r.repeat_).map fun b => (b, ⟨1, false⟩)

/-- Function `formatTime`: the values handed to `asprintf`, in the order in
    which they are printed (`hh:mm:ss` if `hours > 0`, else `mm:ss`).  The
    elapsed time is not negative, so C's `/` and `%` are `Int.ediv` and
    `Int.emod`. -/
def formatTime (seconds : Int) : List Int :=
  let minutes := seconds / 60
  let hours := minutes / 60
  let seconds := seconds % 60
  if hours > 0 then [hours, minutes, seconds] else [minutes, seconds]

/-- Well-formed board: positive dimensions and a cell array of `w*h` cells. -/
def WF (bd : Board) : Prop :=
  0 < bd.w ∧ 0 < bd.h ∧ (bd.data.length : Int) = bd.w * bd.h

/-- The coordinates `(x, y)` lie on the board. -/
def Inb (bd : Board) (x y : Int) : Prop :=
  0 ≤ x ∧ x < bd.w ∧ 0 ≤ y ∧ y < bd.h

/-- Two boards agree on everything but the contents of the cells. -/
def SameFrame (a b : Board) : Prop :=
  b.w = a.w ∧ b.h = a.h ∧ b.data.length = a.data.length ∧ b.curx = a.curx ∧
  b.cury = a.cury ∧ b.nbombs = a.nbombs ∧ b.nflags = a.nflags ∧ b.nopen = a.nopen ∧
  b.startTime = a.startTime

/-- Board `b` differs from `a` at most in the counts of its cells. -/
def SameMarks (a b : Board) : Prop :=
  SameFrame a b ∧ ∀ j, (b.cell j).open_ = (a.cell j).open_ ∧
    (b.cell j).bomb = (a.cell j).bomb ∧ (b.cell j).flag = (a.cell j).flag

/-- The condition under which the loop body at offset `(dx, dy)` increments
    the count of cell `j`. -/
def bumps (bd : Board) (pos j : Int) (p : Int × Int) : Bool :=
  decide (¬ (p.2 = 0 ∧ p.1 = 0) ∧ j = pos + bd.w * p.1 + p.2)

/-- The offsets `(dy, dx)` visited by the `for` loops of `board_fill` at `pos`. -/
def fill_offsets (bd : Board) (pos : Int) : List (Int × Int) :=
  (intRange (if pos < bd.w then 0 else -1) (if pos ≥ bd.w * (bd.h - 1) then 0 else 1)).product
    (intRange (if pos % bd.w = 0 then 0 else -1) (if pos % bd.w = bd.w - 1 then 0 else 1))

/-- Number of mines on the board. -/
def bombCount (bd : Board) : Nat := bd.data.countP fun d => d.bomb

/-- Number of open cells on the board. -/
def openCount (bd : Board) : Nat := bd.data.countP fun d => d.open_

/-- Number of flagged cells on the board. -/
def flagCount (bd : Board) : Nat := bd.data.countP fun d => d.flag

/-- Cell `(x', y')` is the left, upper, right or lower neighbour of `(x, y)`. -/
def Adj4 (x y x' y' : Int) : Prop :=
  (x' = x - 1 ∧ y' = y) ∨ (x' = x ∧ y' = y - 1) ∨ (x' = x + 1 ∧ y' = y) ∨
    (x' = x ∧ y' = y + 1)

/-- Flood paths: `FloodPath bd x y cx cy` says that there is a 4-directional path of on-board cells,
    all closed in `bd`, from `(x, y)` to `(cx, cy)`, every cell of which
    before the last has count 0. -/
inductive FloodPath (bd : Board) : Int → Int → Int → Int → Prop where
  | here (x y : Int) : Inb bd x y → (bd.cell (bd.w * y + x)).open_ = false →
      FloodPath bd x y x y
  | step (x y x' y' cx cy : Int) : Inb bd x y → (bd.cell (bd.w * y + x)).open_ = false →
      (bd.cell (bd.w * y + x)).count = 0 → Adj4 x y x' y' → FloodPath bd x' y' cx cy →
      FloodPath bd x y cx cy

/-- Board `b` results from `a` by opening cells: nothing but open marks,
    flags and `nopen` may differ, open cells stay open, and `nopen` grows by
    the number of cells opened. -/
structure Opens (a b : Board) : Prop where
  w : b.w = a.w
  h : b.h = a.h
  len : b.data.length = a.data.length
  curx : b.curx = a.curx
  cury : b.cury = a.cury
  nbombs : b.nbombs = a.nbombs
  nflags : b.nflags = a.nflags
  startTime : b.startTime = a.startTime
  bomb : ∀ j, (b.cell j).bomb = (a.cell j).bomb
  count : ∀ j, (b.cell j).count = (a.cell j).count
  mono : ∀ j, (a.cell j).open_ = true → (b.cell j).open_ = true
  flag : ∀ j, (b.cell j).open_ = (a.cell j).open_ → (b.cell j).flag = (a.cell j).flag
  more : openCount a ≤ openCount b
  nopen : b.nopen - (openCount b : Int) = a.nopen - (openCount a : Int)

/-- Cell `(cx, cy)` is closed in `a` and open in `b`. -/
def Newly (a b : Board) (cx cy : Int) : Prop :=
  (a.cell (a.w * cy + cx)).open_ = false ∧ (b.cell (a.w * cy + cx)).open_ = true

/-- What one call `board_flood(a, x, y)` with result `b` achieves. -/
structure FloodOK (a : Board) (x y : Int) (b : Board) : Prop where
  opens : Opens a b
  seed : (b.cell (a.w * y + x)).open_ = true
  sound : ∀ cx cy, Inb a cx cy → Newly a b cx cy → FloodPath a x y cx cy
  closure : ∀ cx cy, Inb a cx cy → Newly a b cx cy → (a.cell (a.w * cy + cx)).count = 0 →
    ∀ nx ny, Adj4 cx cy nx ny → Inb a nx ny → (b.cell (a.w * ny + nx)).open_ = true
  grow : openCount a < openCount b

/-- What the part of a call `board_flood(a0, x, y)` that leads from board `a`
    to board `b` achieves. -/
structure StageOK (a0 : Board) (x y : Int) (a b : Board) : Prop where
  opens : Opens a b
  sound : ∀ cx cy, Inb a0 cx cy → Newly a b cx cy → FloodPath a0 x y cx cy
  closure : ∀ cx cy, Inb a0 cx cy → Newly a b cx cy → ¬ (cx = x ∧ cy = y) →
    (a0.cell (a0.w * cy + cx)).count = 0 →
    ∀ nx ny, Adj4 cx cy nx ny → Inb a0 nx ny → (b.cell (a0.w * ny + nx)).open_ = true

/-- The up-to-8 neighbours of `(x, y)`, as coordinates `(x', y')`. -/
def neighbours (x y : Int) : List (Int × Int) :=
  [(x - 1, y - 1), (x, y - 1), (x + 1, y - 1), (x - 1, y), (x + 1, y),
   (x - 1, y + 1), (x, y + 1), (x + 1, y + 1)]

/-- The coordinates `p = (x, y)` lie on the board and the cell is a mine. -/
def isMine (bd : Board) (p : Int × Int) : Bool :=
  decide (0 ≤ p.1 ∧ p.1 < bd.w ∧ 0 ≤ p.2 ∧ p.2 < bd.h) && (bd.cell (bd.w * p.2 + p.1)).bomb

/-- Number of mines among the on-board neighbours of `(x, y)`. -/
def neighbourMines (bd : Board) (x y : Int) : Nat :=
  (neighbours x y).countP (isMine bd)

/-- The counts are right: a mine has count 0, any other cell has as count
    the number of mines among its neighbours. -/
def CountsOK (bd : Board) : Prop :=
  ∀ x y, Inb bd x y →
    if (bd.cell (bd.w * y + x)).bomb = true then (bd.cell (bd.w * y + x)).count = 0
    else (bd.cell (bd.w * y + x)).count = (neighbourMines bd x y : Int)

/-- The boards reachable from the fresh board `board_make w h nbombs` by
    calls of `board_shiftcursor`, `board_flag` and `board_open`.  A call of
    `board_open` counts when it returns (its `board_fill` completes on the
    draws it is given) and the clock reading `now` is a valid time, that is,
    not the error value `-1`. -/
inductive Reachable (w h nbombs : Int) : Board → Prop where
  | fresh : Reachable w h nbombs (board_make w h nbombs)
  | shift (bd : Board) (dir : Direction) (n : Int) (bd' : Board) :
      Reachable w h nbombs bd → board_shiftcursor bd dir n = some bd' →
      Reachable w h nbombs bd'
  | flag (bd : Board) : Reachable w h nbombs bd → Reachable w h nbombs (board_flag bd)
  | opened (bd : Board) (draws : List Nat) (now : Int) (r : Bool) (bd' : Board) :
      Reachable w h nbombs bd → now ≠ -1 → board_open bd draws now = some (r, bd') →
      Reachable w h nbombs bd'

/-- Board `b` differs from `a` at most in the cursor, the flags and `nflags`. -/
structure SameField (a b : Board) : Prop where
  w : b.w = a.w
  h : b.h = a.h
  len : b.data.length = a.data.length
  nbombs : b.nbombs = a.nbombs
  nopen : b.nopen = a.nopen
  startTime : b.startTime = a.startTime
  cells : ∀ j, (b.cell j).open_ = (a.cell j).open_ ∧ (b.cell j).bomb = (a.cell j).bomb ∧
    (b.cell j).count = (a.cell j).count

/-- The invariant of the boards reachable from `board_make w h nb`. -/
structure Inv (w h nb : Int) (bd : Board) : Prop where
  wf : WF bd
  dims : bd.w = w ∧ bd.h = h ∧ bd.nbombs = nb
  cur : Inb bd bd.curx bd.cury
  nopen : bd.nopen = (openCount bd : Int)
  counts : CountsOK bd
  safe : ∀ j, (bd.cell j).open_ = true → (bd.cell j).bomb = false
  pre : bd.startTime = -1 → bombCount bd = 0 ∧ openCount bd = 0
  post : bd.startTime ≠ -1 → (bombCount bd : Int) = max nb 0

/-- The 3x3 board with 2 mines that `board_fill` produces from the draws
    `4, 0, 0, 8` when cell `(1, 1)` is excluded: mines at `(0,0)` and `(2,2)`. -/
def demoFilled : Board :=
  { w := 3, h := 3,
    data := [⟨false, true, false, 0⟩, ⟨false, false, false, 1⟩, ⟨false, false, false, 0⟩,
             ⟨false, false, false, 1⟩, ⟨false, false, false, 2⟩, ⟨false, false, false, 1⟩,
             ⟨false, false, false, 0⟩, ⟨false, false, false, 1⟩, ⟨false, true, false, 0⟩],
    curx := 0, cury := 0, nbombs := 2, nflags := 0, nopen := 0, startTime := 7 }

/-- The 2x1 board with its mine on `(1, 0)` after `(0, 0)` has been opened. -/
def demoWon : Board :=
  { w := 2, h := 1, data := [⟨true, false, false, 1⟩, ⟨false, true, false, 0⟩],
    curx := 0, cury := 0, nbombs := 1, nflags := 0, nopen := 1, startTime := 5 }

/-- The 3x3 board with one mine on `(2, 2)` reached by flagging `(0, 0)`,
    moving one step right and opening `(1, 0)`: the flood has opened the
    flagged cell and cleared its flag, and `nflags` is still 1. -/
def demoStale : Board :=
  { w := 3, h := 3,
    data := [⟨true, false, false, 0⟩, ⟨true, false, false, 0⟩, ⟨true, false, false, 0⟩,
             ⟨true, false, false, 0⟩, ⟨true, false, false, 1⟩, ⟨true, false, false, 1⟩,
             ⟨true, false, false, 0⟩, ⟨true, false, false, 1⟩, ⟨false, true, false, 0⟩],
    curx := 1, cury := 0, nbombs := 1, nflags := 1, nopen := 8, startTime := 5 }

/-- The fresh 2x1 board with one mine to place whose cursor cell `(0, 0)` is
    flagged. -/
def demoFlagged : Board :=
  { w := 2, h := 1, data := [⟨false, false, true, 0⟩, ⟨false, false, false, 0⟩],
    curx := 0, cury := 0, nbombs := 1, nflags := 1, nopen := 0, startTime := -1 }

/-- The board `demoFlagged` after `board_open` with the draw `1` at time 7. -/
def demoFlaggedFilled : Board :=
  { w := 2, h := 1, data := [⟨false, false, true, 1⟩, ⟨false, true, false, 0⟩],
    curx := 0, cury := 0, nbombs := 1, nflags := 1, nopen := 0, startTime := 7 }

/-- Thirteen values of `rand()` that place 10 mines on a 9x9 board. -/
def demoDraws : List Nat := [40, 3, 17, 80, 41, 3, 22, 64, 9, 55, 71, 30, 12]

/-- The loop of `main` over a run of digit keys: `main_knum` for each digit in
    turn.  (Between two keys the loop only redraws the board and tests
    `board_win`, which do not touch the repeat state.) -/
def main_knums : Rep → List Nat → Option Rep
  | r, [] => some r
  | r, d :: ds => (main_knum r d).bind fun p => main_knums p.1 ds

/-- The number that the decimal digits `ds` add to the digits read so far,
    which stand for `a`. -/
def decimal_from (a : Int) : List Nat → Int
  | [] => a
  | d :: ds => decimal_from (10 * a + (d : Int)) ds

/-- The decimal value of the digits `ds`, most significant first. -/
def decimal (ds : List Nat) : Int := decimal_from 0 ds

/-- Number of closed cells on the board. -/
def closedCount (bd : Board) : Nat := bd.data.countP fun d => !d.open_

/-- The board `bd` with its cursor moved `n` steps in direction `dir` and
    stopped at the edge of the board. -/
def shifted (bd : Board) (dir : Direction) (n : Int) : Board :=
  match dir with
  | Direction.UP => { bd with cury := max (bd.cury - n) 0 }
  | Direction.RIGHT => { bd with curx := min (bd.curx + n) (bd.w - 1) }
  | Direction.DOWN => { bd with cury := min (bd.cury + n) (bd.h - 1) }
  | Direction.LEFT => { bd with curx := max (bd.curx - n) 0 }

/-- The loop of `main` over a run of digit keys followed by an arrow key,
    from the default repeat state (`repeat = 1`, no number pending): the
    board and the repeat state afterwards. -/
def main_digits_move (bd : Board) (digits : List Nat) (dir : Direction) :
    Option (Board × Rep) :=
  (main_knums ⟨1, false⟩ digits).bind fun r => main_karrow bd r dir

/-! ## Lemmas -/

theorem setCell_length (bd : Board) (i : Int) (d : Data) :
    (bd.setCell i d).data.length = bd.data.length := by
  unfold Board.setCell
  split <;> simp

theorem setCell_frame (bd : Board) (i : Int) (d : Data) : SameFrame bd (bd.setCell i d) := by
  unfold SameFrame
  refine ⟨?_, ?_, setCell_length bd i d, ?_, ?_, ?_, ?_, ?_, ?_⟩ <;>
    (unfold Board.setCell; split <;> rfl)

theorem cell_setCell (bd : Board) (i j : Int) (d : Data) :
    (bd.setCell i d).cell j =
      if j = i ∧ 0 ≤ i ∧ i < bd.data.length then d else bd.cell j := by
  unfold Board.cell Board.setCell
  by_cases hi : 0 ≤ i
  · by_cases hj : 0 ≤ j
    · simp only [hi, hj, if_true, true_and]
      rw [List.getD_eq_getElem?_getD, List.getD_eq_getElem?_getD, List.getElem?_set]
      by_cases hij : j = i
      · subst hij
        by_cases hlt : j < bd.data.length
        · have : j.toNat < bd.data.length := by omega
          simp [hlt, this]
        · have h1 : ¬ j.toNat < bd.data.length := by omega
          have h2 : bd.data.length ≤ j.toNat := by omega
          simp [hlt, h1, List.getElem?_eq_none h2]
      · have : ¬ i.toNat = j.toNat := by omega
        simp [hij, this]
    · have hij : ¬ j = i := by omega
      simp [hi, hj, hij]
  · simp [hi]

theorem cell_setCell_same (bd : Board) (i : Int) (d : Data) (h0 : 0 ≤ i)
    (h1 : i < bd.data.length) : (bd.setCell i d).cell i = d := by
  rw [cell_setCell]; simp [h0, h1]

theorem cell_setCell_ne (bd : Board) (i j : Int) (d : Data) (h : j ≠ i) :
    (bd.setCell i d).cell j = bd.cell j := by
  rw [cell_setCell]; simp [h]

theorem cell_out (bd : Board) (j : Int) (h : ¬ (0 ≤ j ∧ j < bd.data.length)) :
    bd.cell j = data_init := by
  unfold Board.cell
  by_cases hj : 0 ≤ j
  · have : bd.data.length ≤ j.toNat := by omega
    simp [hj, List.getD_eq_getElem?_getD, List.getElem?_eq_none this]
  · simp [hj]

/-- The index of an on-board cell lies in the array. -/
theorem idx_range {bd : Board} (hw : WF bd) {x y : Int} (hb : Inb bd x y) :
    0 ≤ bd.w * y + x ∧ bd.w * y + x < bd.data.length := by
  obtain ⟨hw0, hh0, hl⟩ := hw
  obtain ⟨hx0, hx1, hy0, hy1⟩ := hb
  have h1 : 0 ≤ bd.w * y := Int.mul_nonneg (by omega) hy0
  have h2 : bd.w * (y + 1) ≤ bd.w * bd.h := Int.mul_le_mul_of_nonneg_left (by omega) (by omega)
  rw [Int.mul_add, Int.mul_one] at h2
  omega

/-- Distinct on-board cells have distinct indices. -/
theorem idx_inj {w x y x' y' : Int} (hx : 0 ≤ x ∧ x < w) (hx' : 0 ≤ x' ∧ x' < w)
    (h : w * y + x = w * y' + x') : x = x' ∧ y = y' := by
  have hy : y = y' := by
    rcases Int.lt_trichotomy y y' with hlt | heq | hgt
    · have : w * (y + 1) ≤ w * y' := Int.mul_le_mul_of_nonneg_left (by omega) (by omega)
      rw [Int.mul_add, Int.mul_one] at this
      omega
    · exact heq
    · have : w * (y' + 1) ≤ w * y := Int.mul_le_mul_of_nonneg_left (by omega) (by omega)
      rw [Int.mul_add, Int.mul_one] at this
      omega
  subst hy
  exact ⟨by omega, rfl⟩

theorem SameFrame.frame_refl (a : Board) : SameFrame a a := by
  simp [SameFrame]

theorem SameFrame.frame_trans {a b c : Board} (h1 : SameFrame a b) (h2 : SameFrame b c) :
    SameFrame a c := by
  unfold SameFrame at *
  obtain ⟨a1, a2, a3, a4, a5, a6, a7, a8, a9⟩ := h1
  obtain ⟨b1, b2, b3, b4, b5, b6, b7, b8, b9⟩ := h2
  exact ⟨b1.trans a1, b2.trans a2, b3.trans a3, b4.trans a4, b5.trans a5, b6.trans a6,
    b7.trans a7, b8.trans a8, b9.trans a9⟩

theorem SameFrame.frame_wf {a b : Board} (h : SameFrame a b) (hw : WF a) : WF b := by
  unfold SameFrame at h
  unfold WF at *
  obtain ⟨a1, a2, a3, -⟩ := h
  rw [a1, a2, a3]
  exact hw

theorem SameMarks.marks_refl (a : Board) : SameMarks a a :=
  ⟨SameFrame.frame_refl a, fun _ => ⟨rfl, rfl, rfl⟩⟩

theorem SameMarks.marks_trans {a b c : Board} (h1 : SameMarks a b) (h2 : SameMarks b c) :
    SameMarks a c := by
  refine ⟨h1.1.frame_trans h2.1, fun j => ?_⟩
  obtain ⟨x1, x2, x3⟩ := h1.2 j
  obtain ⟨y1, y2, y3⟩ := h2.2 j
  exact ⟨y1.trans x1, y2.trans x2, y3.trans x3⟩

theorem fill_bump_marks (pos dy : Int) (bd : Board) (dx : Int) :
    SameMarks bd (fill_bump pos dy bd dx) := by
  unfold fill_bump
  by_cases h0 : dx = 0 ∧ dy = 0
  · simp only [h0, and_self, if_true]; exact SameMarks.marks_refl bd
  · simp only [h0, if_false]
    by_cases hb : (bd.cell (pos + bd.w * dy + dx)).bomb = true
    · simp only [hb, if_true]; exact SameMarks.marks_refl bd
    · simp only [hb, Bool.false_eq_true, if_false]
      refine ⟨setCell_frame _ _ _, fun j => ?_⟩
      rw [cell_setCell]
      split
      · rename_i hj; rw [hj.1]; exact ⟨rfl, by simp [hb], rfl⟩
      · exact ⟨rfl, rfl, rfl⟩

theorem fill_bump_count (pos dy : Int) (bd : Board) (dx j : Int) :
    ((fill_bump pos dy bd dx).cell j).count = (bd.cell j).count +
      (if bumps bd pos j (dy, dx) = true ∧ (0 ≤ j ∧ j < bd.data.length) ∧
          (bd.cell j).bomb = false then 1 else 0) := by
  unfold fill_bump bumps
  by_cases h0 : dx = 0 ∧ dy = 0
  · simp [h0]
  · have h0' : ¬ (dy = 0 ∧ dx = 0) := fun h => h0 ⟨h.2, h.1⟩
    simp only [h0, if_false]
    by_cases hb : (bd.cell (pos + bd.w * dy + dx)).bomb = true
    · simp only [hb, if_true]
      by_cases hj : j = pos + bd.w * dy + dx
      · subst hj; simp [hb]
      · simp [hj]
    · simp only [hb, Bool.false_eq_true, if_false]
      rw [cell_setCell]
      by_cases hj : j = pos + bd.w * dy + dx
      · subst hj
        by_cases hr : 0 ≤ pos + bd.w * dy + dx ∧ pos + bd.w * dy + dx < bd.data.length
        · simp [hr, hb, h0']
        · have hr' : ¬ (0 ≤ pos + bd.w * dy + dx ∧ (pos + bd.w * dy + dx < bd.data.length)) := hr
          simp only [true_and, hr', if_false]
          simp [hr]
      · simp [hj]

/-- The nested `for` loops of `board_fill` visit the offsets in the order of
    the product list. -/
theorem fold_product (f : Int → Board → Int → Board) (L1 : List Int) :
    ∀ (L2 : List Int) (b : Board),
      L2.foldl (fun b dy => L1.foldl (f dy) b) b =
        (L2.product L1).foldl (fun b p => f p.1 b p.2) b := by
  intro L2
  induction L2 with
  | nil => intro b; rfl
  | cons dy L2 ih =>
    intro b
    rw [List.foldl_cons, ih]
    show _ = List.foldl _ b ((dy :: L2) ×ˢ L1)
    rw [List.product_cons, List.foldl_append, List.foldl_map]
    rfl

theorem fold_bump_marks (pos : Int) :
    ∀ (P : List (Int × Int)) (bd : Board),
      SameMarks bd (P.foldl (fun b p => fill_bump pos p.1 b p.2) bd) := by
  intro P
  induction P with
  | nil => intro bd; exact SameMarks.marks_refl bd
  | cons p P ih =>
    intro bd
    rw [List.foldl_cons]
    exact (fill_bump_marks pos p.1 bd p.2).marks_trans (ih _)

theorem fold_bump_count (pos j : Int) :
    ∀ (P : List (Int × Int)) (bd : Board),
      ((P.foldl (fun b p => fill_bump pos p.1 b p.2) bd).cell j).count =
        (bd.cell j).count +
          (if (0 ≤ j ∧ j < bd.data.length) ∧ (bd.cell j).bomb = false
            then (P.countP (bumps bd pos j) : Int) else 0) := by
  intro P
  induction P with
  | nil => intro bd; simp
  | cons p P ih =>
    intro bd
    rw [List.foldl_cons, ih, fill_bump_count]
    have hm := fill_bump_marks pos p.1 bd p.2
    have hb : bumps (fill_bump pos p.1 bd p.2) pos j = bumps bd pos j := by
      funext q; unfold bumps; rw [hm.1.1]
    rw [hb, (hm.2 j).2.1, hm.1.2.2.1, List.countP_cons]
    by_cases hr : (0 ≤ j ∧ j < bd.data.length) ∧ (bd.cell j).bomb = false
    · by_cases hp : bumps bd pos j p = true
      · simp [hr, hp]; omega
      · simp [hr, hp]
    · by_cases hp : bumps bd pos j p = true
      · simp only [hr, if_false]; simp
      · simp [hr, hp]

theorem cell_eq_getElem (bd : Board) (i : Int) (h0 : 0 ≤ i) (h1 : i.toNat < bd.data.length) :
    bd.cell i = bd.data[i.toNat] := by
  unfold Board.cell
  simp [h0, List.getD_eq_getElem?_getD, List.getElem?_eq_getElem h1]

/-- Effect of one cell write on the number of cells satisfying `p`. -/
theorem countP_setCell (p : Data → Bool) (bd : Board) (i : Int) (d : Data) (h0 : 0 ≤ i)
    (h1 : i < bd.data.length) :
    (((bd.setCell i d).data.countP p : Nat) : Int) =
      (bd.data.countP p : Nat) - (if p (bd.cell i) = true then 1 else 0) +
        (if p d = true then 1 else 0) := by
  have hlt : i.toNat < bd.data.length := by omega
  have hc := cell_eq_getElem bd i h0 hlt
  unfold Board.setCell
  simp only [h0, if_true]
  rw [List.countP_set p bd.data i.toNat d hlt, hc]
  by_cases hp : p bd.data[i.toNat] = true
  · have hpos : 0 < bd.data.countP p :=
      List.countP_pos_iff.mpr ⟨bd.data[i.toNat], List.getElem_mem _, hp⟩
    by_cases hd : p d = true
    · simp only [hp, hd, if_true]
      omega
    · simp only [hp, hd, if_true, if_false, Bool.false_eq_true]
      omega
  · by_cases hd : p d = true
    · simp only [hp, hd, if_true, if_false, Bool.false_eq_true]
      omega
    · simp only [hp, hd, if_false, Bool.false_eq_true]
      omega

/-- Boards whose cells agree on `p` have the same number of `p`-cells. -/
theorem countP_congr_cells (p : Data → Bool) (a b : Board)
    (hl : b.data.length = a.data.length) (h : ∀ j, p (b.cell j) = p (a.cell j)) :
    b.data.countP p = a.data.countP p := by
  have hm : b.data.map p = a.data.map p := by
    apply List.ext_getElem
    · simp [hl]
    · intro n h1 h2
      simp only [List.length_map] at h1 h2
      have hb := cell_eq_getElem b (n : Int) (by omega) (by simpa using h1)
      have ha := cell_eq_getElem a (n : Int) (by omega) (by simpa using h2)
      simp only [Int.toNat_ofNat] at hb ha
      simp only [List.getElem_map]
      rw [← hb, ← ha]
      exact h n
  have e1 : b.data.countP p = (b.data.map p).countP id := by
    rw [List.countP_map]; rfl
  have e2 : a.data.countP p = (a.data.map p).countP id := by
    rw [List.countP_map]; rfl
  rw [e1, e2, hm]

theorem fill_place_eq (bd : Board) (pos : Int) :
    fill_place bd pos =
      (fill_offsets bd pos).foldl (fun b p => fill_bump pos p.1 b p.2)
        (bd.setCell pos { bd.cell pos with bomb := true, count := 0 }) := by
  unfold fill_place fill_offsets
  exact fold_product (fill_bump pos) _ _ _

theorem fill_place_frame (bd : Board) (pos : Int) : SameFrame bd (fill_place bd pos) := by
  rw [fill_place_eq]
  exact (setCell_frame _ _ _).frame_trans (fold_bump_marks pos _ _).1

/-- What `fill_place` does to each cell: only `pos` becomes a mine, with
    count 0; every other cell keeps its marks and has its count raised once
    for every offset that hits it, unless it is a mine. -/
theorem fill_place_cell (bd : Board) (pos j : Int) (h0 : 0 ≤ pos)
    (h1 : pos < bd.data.length) :
    ((fill_place bd pos).cell j).open_ = (bd.cell j).open_ ∧
    ((fill_place bd pos).cell j).flag = (bd.cell j).flag ∧
    ((fill_place bd pos).cell j).bomb = ((bd.cell j).bomb || decide (j = pos)) ∧
    ((fill_place bd pos).cell j).count =
      (if j = pos then 0 else (bd.cell j).count +
        (if (0 ≤ j ∧ j < bd.data.length) ∧ (bd.cell j).bomb = false
          then ((fill_offsets bd pos).countP (bumps bd pos j) : Int) else 0)) := by
  rw [fill_place_eq]
  have hm := fold_bump_marks pos (fill_offsets bd pos)
    (bd.setCell pos { bd.cell pos with bomb := true, count := 0 })
  have hc := fold_bump_count pos j (fill_offsets bd pos)
    (bd.setCell pos { bd.cell pos with bomb := true, count := 0 })
  obtain ⟨m1, m2, m3⟩ := hm.2 j
  rw [m1, m2, m3, hc, setCell_length]
  have hb : bumps (bd.setCell pos { bd.cell pos with bomb := true, count := 0 }) pos j =
      bumps bd pos j := by
    funext q; unfold bumps; rw [(setCell_frame _ _ _).1]
  rw [hb, cell_setCell]
  by_cases hj : j = pos
  · subst hj
    simp [h0, h1]
  · simp [hj]

theorem board_make_wf (w h nbombs : Int) (hw : 0 < w) (hh : 0 < h) :
    WF (board_make w h nbombs) := by
  refine ⟨hw, hh, ?_⟩
  have : 0 ≤ w * h := Int.mul_nonneg (by omega) (by omega)
  simp [board_make, Int.toNat_of_nonneg this]

theorem board_make_cell (w h nbombs j : Int) : (board_make w h nbombs).cell j = data_init := by
  unfold Board.cell board_make
  by_cases hj : 0 ≤ j
  · simp only [hj, if_true, List.getD_eq_getElem?_getD]
    by_cases hlt : j.toNat < (w * h).toNat
    · simp [List.getElem?_replicate, hlt]
    · simp [List.getElem?_replicate, hlt]
  · simp [hj]

theorem pos_range {bd : Board} (hw : WF bd) (r : Nat) :
    0 ≤ (r : Int) % (bd.w * bd.h) ∧ (r : Int) % (bd.w * bd.h) < bd.data.length := by
  obtain ⟨hw0, hh0, hl⟩ := hw
  have hpos : 0 < bd.w * bd.h := Int.mul_pos hw0 hh0
  rw [hl]
  exact ⟨Int.emod_nonneg _ (by omega), Int.emod_lt_of_pos _ hpos⟩

/-- Invariant rule for the `while` loop of `board_fill`: a property kept by
    every accepted placement holds when the loop ends. -/
theorem fill_loop_inv (I : Int → Board → Prop) (ch : Int)
    (hwf : ∀ n bd, I n bd → WF bd)
    (hstep : ∀ (n : Int) (bd : Board) (pos : Int), I n bd → 0 < n → 0 ≤ pos → pos < bd.data.length → pos ≠ ch →
      (bd.cell pos).bomb = false → I (n - 1) (fill_place bd pos)) :
    ∀ (draws : List Nat) (n : Int) (bd bd' : Board), I n bd →
      fill_loop ch draws n bd = some bd' → I (min n 0) bd' := by
  intro draws
  induction draws with
  | nil =>
    intro n bd bd' hI hf
    unfold fill_loop at hf
    by_cases hn : n > 0
    · simp [hn] at hf
    · simp only [hn, if_false, Option.some.injEq] at hf
      subst hf
      rw [min_eq_left (by omega)]; exact hI
  | cons r rest ih =>
    intro n bd bd' hI hf
    unfold fill_loop at hf
    by_cases hn : n > 0
    · simp only [hn, if_true] at hf
      by_cases hrej : (r : Int) % (bd.w * bd.h) = ch ∨
          (bd.cell ((r : Int) % (bd.w * bd.h))).bomb = true
      · simp only [hrej, if_true] at hf
        exact ih n bd bd' hI hf
      · simp only [hrej, if_false] at hf
        have hr := pos_range (hwf n bd hI) r
        have hnb : (bd.cell ((r : Int) % (bd.w * bd.h))).bomb = false := by
          cases hb : (bd.cell ((r : Int) % (bd.w * bd.h))).bomb
          · rfl
          · exact absurd (Or.inr hb) hrej
        have h1 := hstep n bd _ hI hn hr.1 hr.2 (fun h => hrej (Or.inl h)) hnb
        have h2 := ih (n - 1) _ bd' h1 hf
        have e : min (n - 1) 0 = min n 0 := by
          rw [min_eq_right (by omega), min_eq_right (by omega)]
        rw [← e]; exact h2
    · simp only [hn, if_false, Option.some.injEq] at hf
      subst hf
      rw [min_eq_left (by omega)]; exact hI

/-- A completed `fill_loop` leaves the frame, the open marks and the flags
    untouched and never clears a mine. -/
theorem fill_loop_keeps (ch : Int) (draws : List Nat) (n : Int) (bd bd' : Board) (hw : WF bd)
    (hf : fill_loop ch draws n bd = some bd') :
    WF bd' ∧ SameFrame bd bd' ∧ ∀ j, (bd'.cell j).open_ = (bd.cell j).open_ ∧
      (bd'.cell j).flag = (bd.cell j).flag ∧
      ((bd.cell j).bomb = true → (bd'.cell j).bomb = true) := by
  have key := fill_loop_inv
    (fun _ b => WF b ∧ SameFrame bd b ∧ ∀ j, (b.cell j).open_ = (bd.cell j).open_ ∧
      (b.cell j).flag = (bd.cell j).flag ∧ ((bd.cell j).bomb = true → (b.cell j).bomb = true))
    ch (fun _ _ h => h.1)
    (by
      intro n b pos hI _ h0 h1 _ _
      obtain ⟨hwb, hfr, hc⟩ := hI
      have hfp := fill_place_frame b pos
      refine ⟨hfp.frame_wf hwb, hfr.frame_trans hfp, fun j => ?_⟩
      obtain ⟨c1, c2, c3, -⟩ := fill_place_cell b pos j h0 h1
      obtain ⟨d1, d2, d3⟩ := hc j
      refine ⟨c1.trans d1, c2.trans d2, fun hb => ?_⟩
      rw [c3, d3 hb]; rfl)
    draws n bd bd' ⟨hw, SameFrame.frame_refl bd, fun j => ⟨rfl, rfl, fun h => h⟩⟩ hf
  exact key

/-- The excluded cell is never made a mine by `fill_loop`. -/
theorem fill_loop_excludes (ch : Int) (draws : List Nat) (n : Int) (bd bd' : Board)
    (hw : WF bd) (hc : (bd.cell ch).bomb = false)
    (hf : fill_loop ch draws n bd = some bd') : (bd'.cell ch).bomb = false := by
  have key := fill_loop_inv (fun _ b => WF b ∧ (b.cell ch).bomb = false) ch
    (fun _ _ h => h.1)
    (by
      intro n b pos hI _ h0 h1 hne _
      refine ⟨(fill_place_frame b pos).frame_wf hI.1, ?_⟩
      obtain ⟨-, -, c3, -⟩ := fill_place_cell b pos ch h0 h1
      rw [c3, hI.2]
      simp [Ne.symm hne])
    draws n bd bd' ⟨hw, hc⟩ hf
  exact key.2

/-- Every accepted placement adds exactly one mine. -/
theorem fill_place_bombCount (bd : Board) (pos : Int) (h0 : 0 ≤ pos)
    (h1 : pos < bd.data.length) (hb : (bd.cell pos).bomb = false) :
    bombCount (fill_place bd pos) = bombCount bd + 1 := by
  have e1 : bombCount (fill_place bd pos) =
      bombCount (bd.setCell pos { bd.cell pos with bomb := true, count := 0 }) := by
    rw [fill_place_eq]
    have hm := fold_bump_marks pos (fill_offsets bd pos)
      (bd.setCell pos { bd.cell pos with bomb := true, count := 0 })
    exact countP_congr_cells (fun d => d.bomb) _ _ hm.1.2.2.1 (fun j => (hm.2 j).2.1)
  have e2 : ((bombCount (bd.setCell pos { bd.cell pos with bomb := true, count := 0 }) : Nat)
      : Int) = (bombCount bd : Nat) + 1 := by
    have h := countP_setCell (fun d => d.bomb) bd pos
      { bd.cell pos with bomb := true, count := 0 } h0 h1
    simpa [bombCount, hb] using h
  rw [e1]
  omega

theorem fill_loop_nonpos (ch : Int) (draws : List Nat) (n : Int) (bd : Board) (hn : n ≤ 0) :
    fill_loop ch draws n bd = some bd := by
  have h : ¬ n > 0 := by omega
  cases draws <;> simp [fill_loop, h]

/-- The `while` loop of `board_fill` places exactly `n` further mines (none
    when `n` is negative). -/
theorem fill_loop_bombCount (ch : Int) (draws : List Nat) (n : Int) (bd bd' : Board)
    (hw : WF bd) (hf : fill_loop ch draws n bd = some bd') :
    (bombCount bd' : Int) = bombCount bd + max n 0 := by
  by_cases hn : 0 ≤ n
  · have key := fill_loop_inv
      (fun k b => WF b ∧ 0 ≤ k ∧ (bombCount b : Int) + k = bombCount bd + n) ch
      (fun _ _ h => h.1)
      (by
        intro k b pos hI hk h0 h1 _ hb
        refine ⟨(fill_place_frame b pos).frame_wf hI.1, by omega, ?_⟩
        rw [fill_place_bombCount b pos h0 h1 hb]
        have := hI.2.2
        push_cast
        omega)
      draws n bd bd' ⟨hw, hn, rfl⟩ hf
    have h3 := key.2.2
    rw [min_eq_right hn] at h3
    rw [max_eq_left hn]
    omega
  · rw [fill_loop_nonpos ch draws n bd (by omega)] at hf
    simp only [Option.some.injEq] at hf
    subst hf
    rw [max_eq_right (by omega)]
    omega

theorem Opens.opens_refl (a : Board) : Opens a a :=
  ⟨rfl, rfl, rfl, rfl, rfl, rfl, rfl, rfl, fun _ => rfl, fun _ => rfl, fun _ h => h,
    fun _ _ => rfl, Nat.le_refl _, rfl⟩

theorem Opens.opens_trans {a b c : Board} (h1 : Opens a b) (h2 : Opens b c) : Opens a c where
  w := h2.w.trans h1.w
  h := h2.h.trans h1.h
  len := h2.len.trans h1.len
  curx := h2.curx.trans h1.curx
  cury := h2.cury.trans h1.cury
  nbombs := h2.nbombs.trans h1.nbombs
  nflags := h2.nflags.trans h1.nflags
  startTime := h2.startTime.trans h1.startTime
  bomb := fun j => (h2.bomb j).trans (h1.bomb j)
  count := fun j => (h2.count j).trans (h1.count j)
  mono := fun j h => h2.mono j (h1.mono j h)
  flag := by
    intro j hj
    have hab : (b.cell j).open_ = (a.cell j).open_ := by
      cases ha : (a.cell j).open_
      · cases hb : (b.cell j).open_
        · rfl
        · have := h2.mono j hb
          rw [hj, ha] at this
          exact absurd this (by simp)
      · exact h1.mono j ha
    exact (h2.flag j (hj.trans hab.symm)).trans (h1.flag j hab)
  more := Nat.le_trans h1.more h2.more
  nopen := h2.nopen.trans h1.nopen

theorem Opens.opens_wf {a b : Board} (h : Opens a b) (hw : WF a) : WF b := by
  unfold WF at *
  rw [h.w, h.h, h.len]
  exact hw

theorem Opens.inb {a b : Board} (h : Opens a b) {x y : Int} : Inb b x y ↔ Inb a x y := by
  unfold Inb
  rw [h.w, h.h]

/-- Opening the closed cell `i` (the first statements of `board_flood`). -/
theorem flood_open_opens (bd : Board) (i : Int) (h0 : 0 ≤ i) (h1 : i < bd.data.length)
    (hc : (bd.cell i).open_ = false) :
    Opens bd (flood_open bd i) ∧ openCount (flood_open bd i) = openCount bd + 1 ∧
      ((flood_open bd i).cell i).open_ = true ∧
      ∀ j, j ≠ i → (flood_open bd i).cell j = bd.cell j := by
  have hcell : ∀ j, (flood_open bd i).cell j =
      if j = i ∧ 0 ≤ i ∧ i < bd.data.length
        then { bd.cell i with open_ := true, flag := false } else bd.cell j := by
    intro j
    exact cell_setCell bd i j _
  have hfr := setCell_frame bd i { bd.cell i with open_ := true, flag := false }
  have hcnt : ((openCount (flood_open bd i) : Nat) : Int) = (openCount bd : Nat) + 1 := by
    have h := countP_setCell (fun d => d.open_) bd i
      { bd.cell i with open_ := true, flag := false } h0 h1
    simpa [openCount, flood_open, hc] using h
  have hcnt' : openCount (flood_open bd i) = openCount bd + 1 := by omega
  refine ⟨?_, hcnt', ?_, ?_⟩
  · refine ⟨hfr.1, hfr.2.1, hfr.2.2.1, hfr.2.2.2.1, hfr.2.2.2.2.1, hfr.2.2.2.2.2.1,
      hfr.2.2.2.2.2.2.1, hfr.2.2.2.2.2.2.2.2, ?_, ?_, ?_, ?_, by omega, ?_⟩
    · intro j; rw [hcell]; split
      · rename_i hj; rw [hj.1]
      · rfl
    · intro j; rw [hcell]; split
      · rename_i hj; rw [hj.1]
      · rfl
    · intro j hj; rw [hcell]; split
      · rfl
      · exact hj
    · intro j; rw [hcell]; split
      · rename_i hj; rw [hj.1, hc]; intro h; exact absurd h (by simp)
      · intro _; rfl
    · show bd.nopen + 1 - (openCount (flood_open bd i) : Int) = _
      omega
  · rw [hcell]; simp [h0, h1]
  · intro j hj; rw [hcell]; simp [hj]

theorem FloodPath.mono {a b : Board} (h : Opens a b) {x y cx cy : Int}
    (p : FloodPath b x y cx cy) : FloodPath a x y cx cy := by
  have hcl : ∀ j, (b.cell j).open_ = false → (a.cell j).open_ = false := by
    intro j hj
    cases ha : (a.cell j).open_
    · rfl
    · rw [h.mono j ha] at hj; exact absurd hj (by simp)
  induction p with
  | here x y hb hc =>
    rw [h.w] at hc
    exact FloodPath.here x y (h.inb.mp hb) (hcl _ hc)
  | step x y x' y' cx cy hb hc hz hadj _ ih =>
    rw [h.w] at hc hz
    rw [h.count] at hz
    exact FloodPath.step x y x' y' cx cy (h.inb.mp hb) (hcl _ hc) hz hadj ih

theorem StageOK.stage_trans {a0 a b c : Board} {x y : Int} (h0 : a.w = a0.w)
    (h1 : StageOK a0 x y a b) (h2 : StageOK a0 x y b c) : StageOK a0 x y a c where
  opens := h1.opens.opens_trans h2.opens
  sound := by
    intro cx cy hb hn
    have hbw : b.w = a0.w := h1.opens.w.trans h0
    unfold Newly at hn
    rw [h0] at hn
    cases hm : (b.cell (a0.w * cy + cx)).open_
    · exact h2.sound cx cy hb ⟨by rw [hbw]; exact hm, by rw [hbw]; exact hn.2⟩
    · exact h1.sound cx cy hb ⟨by rw [h0]; exact hn.1, by rw [h0]; exact hm⟩
  closure := by
    intro cx cy hb hn hne hz nx ny hadj hnb
    have hbw : b.w = a0.w := h1.opens.w.trans h0
    unfold Newly at hn
    rw [h0] at hn
    cases hm : (b.cell (a0.w * cy + cx)).open_
    · exact h2.closure cx cy hb ⟨by rw [hbw]; exact hm, by rw [hbw]; exact hn.2⟩
        hne hz nx ny hadj hnb
    · exact h2.opens.mono _
        (h1.closure cx cy hb ⟨by rw [h0]; exact hn.1, by rw [h0]; exact hm⟩ hne hz nx ny
          hadj hnb)

/-- One guarded recursive call, given that the recursive calls are correct. -/
theorem flood_visit_ok (fuel : Nat)
    (ih : ∀ (bd : Board) (x y : Int) (bd' : Board), WF bd → Inb bd x y →
      (bd.cell (bd.w * y + x)).open_ = false → board_flood_aux fuel bd x y = some bd' →
      FloodOK bd x y bd')
    (a0 : Board) (x y : Int) (b : Board) (x' y' : Int) (g : Bool) (i : Int) (b' : Board)
    (hw : WF a0) (h0 : Opens a0 b) (hi : i = a0.w * y' + x') (hg : g = true ↔ Inb a0 x' y')
    (hadj : Adj4 x y x' y') (hsb : Inb a0 x y)
    (hsc : (a0.cell (a0.w * y + x)).open_ = false)
    (hsz : (a0.cell (a0.w * y + x)).count = 0)
    (hv : flood_visit (fun c => board_flood_aux fuel c x' y') g i b = some b') :
    StageOK a0 x y b b' ∧ (Inb a0 x' y' → (b'.cell (a0.w * y' + x')).open_ = true) := by
  have triv : ∀ cx cy, ¬ Newly b b cx cy := by
    intro cx cy hn
    unfold Newly at hn
    rw [hn.1] at hn
    exact absurd hn.2 (by simp)
  unfold flood_visit at hv
  by_cases hgt : g = true
  · simp only [hgt, if_true] at hv
    cases ho : (b.cell i).open_
    · simp only [ho, Bool.false_eq_true, if_false] at hv
      have hb' : Inb b x' y' := h0.inb.mpr (hg.mp hgt)
      have hi' : i = b.w * y' + x' := by rw [h0.w]; exact hi
      rw [hi'] at ho
      have F := ih b x' y' b' (h0.opens_wf hw) hb' ho hv
      refine ⟨⟨F.opens, ?_, ?_⟩, fun _ => by rw [← h0.w]; exact F.seed⟩
      · intro cx cy hb hn
        have p := F.sound cx cy (h0.inb.mpr hb) hn
        exact FloodPath.step x y x' y' cx cy hsb hsc hsz hadj (FloodPath.mono h0 p)
      · intro cx cy hb hn _ hz nx ny ha hnb
        rw [← h0.w, ← h0.count] at hz
        have := F.closure cx cy (h0.inb.mpr hb) hn hz nx ny ha (h0.inb.mpr hnb)
        rw [h0.w] at this
        exact this
    · simp only [ho, if_true, Option.some.injEq] at hv
      subst hv
      refine ⟨⟨Opens.opens_refl b, fun cx cy _ hn => absurd hn (triv cx cy),
        fun cx cy _ hn => absurd hn (triv cx cy)⟩, fun _ => by rw [← hi]; exact ho⟩
  · simp only [hgt, Bool.false_eq_true, if_false, Option.some.injEq] at hv
    subst hv
    refine ⟨⟨Opens.opens_refl b, fun cx cy _ hn => absurd hn (triv cx cy),
      fun cx cy _ hn => absurd hn (triv cx cy)⟩, fun hb => absurd (hg.mpr hb) hgt⟩

/-- Correctness of `board_flood` for every recursion bound that is not hit. -/
theorem flood_aux_ok : ∀ (fuel : Nat) (bd : Board) (x y : Int) (bd' : Board), WF bd →
    Inb bd x y → (bd.cell (bd.w * y + x)).open_ = false →
    board_flood_aux fuel bd x y = some bd' → FloodOK bd x y bd' := by
  intro fuel
  induction fuel with
  | zero =>
    intro bd x y bd' _ _ _ hf
    simp [board_flood_aux] at hf
  | succ fuel ih =>
    intro bd x y bd' hw hb hc hf
    have hr := idx_range hw hb
    obtain ⟨hop, hcnt, hseed, hother⟩ := flood_open_opens bd (bd.w * y + x) hr.1 hr.2 hc
    have hxy : ∀ cx cy, Inb bd cx cy → ¬ (cx = x ∧ cy = y) →
        bd.w * cy + cx ≠ bd.w * y + x := by
      intro cx cy hcb hne heq
      exact hne (idx_inj ⟨hcb.1, hcb.2.1⟩ ⟨hb.1, hb.2.1⟩ heq)
    have hseedOnly : ∀ cx cy, Inb bd cx cy →
        Newly bd (flood_open bd (bd.w * y + x)) cx cy → cx = x ∧ cy = y := by
      intro cx cy hcb hn
      by_contra hne
      unfold Newly at hn
      rw [hother _ (hxy cx cy hcb hne), hn.1] at hn
      exact absurd hn.2 (by simp)
    have S0 : StageOK bd x y bd (flood_open bd (bd.w * y + x)) := by
      refine ⟨hop, ?_, ?_⟩
      · intro cx cy hcb hn
        obtain ⟨e1, e2⟩ := hseedOnly cx cy hcb hn
        subst e1; subst e2
        exact FloodPath.here _ _ hb hc
      · intro cx cy hcb hn hne
        exact absurd (hseedOnly cx cy hcb hn) hne
    rw [board_flood_aux] at hf
    rw [hop.w, hop.count] at hf
    generalize flood_open bd (bd.w * y + x) = bd0 at hf hop hcnt hseed hother S0 hseedOnly
    by_cases hz : (bd.cell (bd.w * y + x)).count = 0
    · simp only [hz, ne_eq, not_true_eq_false, if_false] at hf
      obtain ⟨bd1, hv1, hf⟩ := Option.bind_eq_some.mp hf
      obtain ⟨bd2, hv2, hf⟩ := Option.bind_eq_some.mp hf
      obtain ⟨bd3, hv3, hv4⟩ := Option.bind_eq_some.mp hf
      obtain ⟨T1, R1⟩ := flood_visit_ok fuel ih bd x y bd0 (x - 1) y _ _ bd1 hw hop
        (by omega) (by unfold Inb; simp only [decide_eq_true_eq]; unfold Inb at hb; omega)
        (Or.inl ⟨rfl, rfl⟩) hb hc hz hv1
      have O1 := hop.opens_trans T1.opens
      rw [T1.opens.w.trans hop.w] at hv2
      obtain ⟨T2, R2⟩ := flood_visit_ok fuel ih bd x y bd1 x (y - 1) _ _ bd2 hw O1
        rfl (by unfold Inb; simp only [decide_eq_true_eq]; unfold Inb at hb; omega)
        (Or.inr (Or.inl ⟨rfl, rfl⟩)) hb hc hz hv2
      have O2 := O1.opens_trans T2.opens
      rw [O2.w] at hv3
      obtain ⟨T3, R3⟩ := flood_visit_ok fuel ih bd x y bd2 (x + 1) y _ _ bd3 hw O2
        (by omega) (by unfold Inb; simp only [decide_eq_true_eq]; unfold Inb at hb; omega)
        (Or.inr (Or.inr (Or.inl ⟨rfl, rfl⟩))) hb hc hz hv3
      have O3 := O2.opens_trans T3.opens
      rw [O3.w, O3.h] at hv4
      obtain ⟨T4, R4⟩ := flood_visit_ok fuel ih bd x y bd3 x (y + 1) _ _ bd' hw O3
        rfl (by unfold Inb; simp only [decide_eq_true_eq]; unfold Inb at hb; omega)
        (Or.inr (Or.inr (Or.inr ⟨rfl, rfl⟩))) hb hc hz hv4
      have S : StageOK bd x y bd bd' :=
        StageOK.stage_trans rfl (StageOK.stage_trans rfl (StageOK.stage_trans rfl (StageOK.stage_trans rfl S0
          T1) T2) T3) T4
      refine ⟨S.opens, ?_, S.sound, ?_, ?_⟩
      · exact T4.opens.mono _ (T3.opens.mono _ (T2.opens.mono _ (T1.opens.mono _ hseed)))
      · intro cx cy hcb hn hcz nx ny hadj hnb
        by_cases hs : cx = x ∧ cy = y
        · obtain ⟨e1, e2⟩ := hs
          subst e1; subst e2
          rcases hadj with ⟨a1, a2⟩ | ⟨a1, a2⟩ | ⟨a1, a2⟩ | ⟨a1, a2⟩
          · subst a1; subst a2
            exact T4.opens.mono _ (T3.opens.mono _ (T2.opens.mono _ (R1 hnb)))
          · subst a1; subst a2
            exact T4.opens.mono _ (T3.opens.mono _ (R2 hnb))
          · subst a1; subst a2
            exact T4.opens.mono _ (R3 hnb)
          · subst a1; subst a2
            exact R4 hnb
        · exact S.closure cx cy hcb hn hs hcz nx ny hadj hnb
      · have m1 := T1.opens.more
        have m2 := T2.opens.more
        have m3 := T3.opens.more
        have m4 := T4.opens.more
        omega
    · simp only [hz, ne_eq, not_false_eq_true, if_true, Option.some.injEq] at hf
      subst hf
      refine ⟨hop, hseed, S0.sound, ?_, by omega⟩
      intro cx cy hcb hn hcz
      obtain ⟨e1, e2⟩ := hseedOnly cx cy hcb hn
      subst e1; subst e2
      exact absurd hcz hz

theorem openCount_lt (bd : Board) (i : Int) (h0 : 0 ≤ i) (h1 : i < bd.data.length)
    (hc : (bd.cell i).open_ = false) : openCount bd < bd.data.length := by
  have hlt : i.toNat < bd.data.length := by omega
  have hle : openCount bd ≤ bd.data.length := List.countP_le_length _
  rcases Nat.lt_or_ge (openCount bd) bd.data.length with h | h
  · exact h
  · have heq : bd.data.countP (fun d => d.open_) = bd.data.length := Nat.le_antisymm hle h
    have hall := List.countP_eq_length.mp heq
    have := hall bd.data[i.toNat] (List.getElem_mem _)
    rw [← cell_eq_getElem bd i h0 hlt, hc] at this
    exact absurd this (by simp)

theorem flood_visit_total (fuel : Nat)
    (ih : ∀ (bd : Board) (x y : Int), WF bd → Inb bd x y →
      (bd.cell (bd.w * y + x)).open_ = false → bd.data.length ≤ fuel + openCount bd →
      ∃ bd', board_flood_aux fuel bd x y = some bd')
    (b : Board) (x' y' : Int) (g : Bool) (i : Int) (hw : WF b) (hi : i = b.w * y' + x')
    (hg : g = true → Inb b x' y') (hfuel : b.data.length ≤ fuel + openCount b) :
    ∃ b', flood_visit (fun c => board_flood_aux fuel c x' y') g i b = some b' ∧
      Opens b b' := by
  unfold flood_visit
  by_cases hgt : g = true
  · simp only [hgt, if_true]
    cases ho : (b.cell i).open_
    · simp only [Bool.false_eq_true, if_false]
      rw [hi] at ho
      obtain ⟨b', hb'⟩ := ih b x' y' hw (hg hgt) ho hfuel
      exact ⟨b', hb', (flood_aux_ok fuel b x' y' b' hw (hg hgt) ho hb').opens⟩
    · exact ⟨b, by simp, Opens.opens_refl b⟩
  · simp only [hgt, Bool.false_eq_true, if_false]
    exact ⟨b, rfl, Opens.opens_refl b⟩

/-- Function `board_flood` returns whenever the recursion bound is at least the
    number of closed cells. -/
theorem board_flood_aux_total : ∀ (fuel : Nat) (bd : Board) (x y : Int), WF bd →
    Inb bd x y → (bd.cell (bd.w * y + x)).open_ = false →
    bd.data.length ≤ fuel + openCount bd → ∃ bd', board_flood_aux fuel bd x y = some bd' := by
  intro fuel
  induction fuel with
  | zero =>
    intro bd x y hw hb hc hfuel
    have hr := idx_range hw hb
    have := openCount_lt bd _ hr.1 hr.2 hc
    omega
  | succ fuel ih =>
    intro bd x y hw hb hc hfuel
    have hr := idx_range hw hb
    obtain ⟨hop, hcnt, -, -⟩ := flood_open_opens bd (bd.w * y + x) hr.1 hr.2 hc
    rw [board_flood_aux]
    generalize flood_open bd (bd.w * y + x) = bd0 at hop hcnt ⊢
    by_cases hz : (bd0.cell (bd0.w * y + x)).count ≠ 0
    · exact ⟨bd0, if_pos hz⟩
    · rw [if_neg hz]
      have hb0 : Inb bd0 x y := hop.inb.mpr hb
      have f0 : bd0.data.length ≤ fuel + openCount bd0 := by rw [hop.len]; omega
      obtain ⟨bd1, hv1, O1⟩ := flood_visit_total fuel ih bd0 (x - 1) y (decide (x > 0))
        (bd0.w * y + x - 1) (hop.opens_wf hw) (by omega)
        (by unfold Inb; simp only [decide_eq_true_eq]; unfold Inb at hb0; omega) f0
      have f1 : bd1.data.length ≤ fuel + openCount bd1 := by
        have := O1.more; rw [O1.len]; omega
      have w1 := O1.opens_wf (hop.opens_wf hw)
      have hb1 : Inb bd1 x y := O1.inb.mpr hb0
      obtain ⟨bd2, hv2, O2⟩ := flood_visit_total fuel ih bd1 x (y - 1) (decide (y > 0))
        (bd1.w * (y - 1) + x) w1 rfl
        (by unfold Inb; simp only [decide_eq_true_eq]; unfold Inb at hb1; omega) f1
      have f2 : bd2.data.length ≤ fuel + openCount bd2 := by
        have := O2.more; rw [O2.len]; omega
      have w2 := O2.opens_wf w1
      have hb2 : Inb bd2 x y := O2.inb.mpr hb1
      obtain ⟨bd3, hv3, O3⟩ := flood_visit_total fuel ih bd2 (x + 1) y
        (decide (x < bd2.w - 1)) (bd2.w * y + x + 1) w2 (by omega)
        (by unfold Inb; simp only [decide_eq_true_eq]; unfold Inb at hb2; omega) f2
      have f3 : bd3.data.length ≤ fuel + openCount bd3 := by
        have := O3.more; rw [O3.len]; omega
      have w3 := O3.opens_wf w2
      have hb3 : Inb bd3 x y := O3.inb.mpr hb2
      obtain ⟨bd4, hv4, -⟩ := flood_visit_total fuel ih bd3 x (y + 1)
        (decide (y < bd3.h - 1)) (bd3.w * (y + 1) + x) w3 rfl
        (by unfold Inb; simp only [decide_eq_true_eq]; unfold Inb at hb3; omega) f3
      refine ⟨bd4, ?_⟩
      rw [hv1, Option.some_bind, hv2, Option.some_bind, hv3, Option.some_bind, hv4]

/-- Function `board_flood` returns on every well-formed board and closed on-board seed. -/
theorem board_flood_total (bd : Board) (x y : Int) (hw : WF bd) (hb : Inb bd x y)
    (hc : (bd.cell (bd.w * y + x)).open_ = false) : ∃ bd', board_flood bd x y = some bd' :=
  board_flood_aux_total bd.data.length bd x y hw hb hc (Nat.le_add_right _ _)

theorem FloodPath.start_inb {bd : Board} {x y cx cy : Int} (p : FloodPath bd x y cx cy) :
    Inb bd x y := by
  cases p with
  | here _ _ hb _ => exact hb
  | step _ _ _ _ _ _ hb _ _ _ _ => exact hb

theorem FloodPath.target {bd : Board} {x y cx cy : Int} (p : FloodPath bd x y cx cy) :
    Inb bd cx cy ∧ (bd.cell (bd.w * cy + cx)).open_ = false := by
  induction p with
  | here _ _ hb hc => exact ⟨hb, hc⟩
  | step _ _ _ _ _ _ _ _ _ _ _ ih => exact ih

/-- Every cell that a flood path leads to has been opened by the flood. -/
theorem flood_complete {bd bd' : Board} {x y : Int} (F : FloodOK bd x y bd') :
    ∀ {px py cx cy : Int}, FloodPath bd px py cx cy →
      (bd'.cell (bd.w * py + px)).open_ = true → (bd'.cell (bd.w * cy + cx)).open_ = true := by
  intro px py cx cy p
  induction p with
  | here _ _ _ _ => exact fun h => h
  | step px py px' py' cx cy hb hc hz hadj q ih =>
    intro ho
    exact ih (F.closure px py hb ⟨hc, ho⟩ hz px' py' hadj q.start_inb)



theorem mem_intRange (lo hi d : Int) : d ∈ intRange lo hi ↔ lo ≤ d ∧ d ≤ hi := by
  unfold intRange
  simp only [List.mem_map, List.mem_range]
  constructor
  · rintro ⟨k, hk, rfl⟩
    omega
  · intro h
    exact ⟨(d - lo).toNat, by omega, by omega⟩

theorem nodup_intRange (lo hi : Int) : (intRange lo hi).Nodup := by
  unfold intRange
  apply List.Nodup.map _ (List.nodup_range _)
  intro a b hab
  simp only at hab
  omega

theorem nodup_neighbours (x y : Int) : (neighbours x y).Nodup := by
  simp only [neighbours, List.nodup_cons, List.mem_cons, Prod.mk.injEq, List.mem_singleton,
    List.not_mem_nil, not_false_eq_true, List.nodup_nil, and_true, not_or]
  omega

theorem mem_neighbours (x y px py : Int) :
    (px, py) ∈ neighbours x y ↔
      (-1 ≤ px - x ∧ px - x ≤ 1 ∧ -1 ≤ py - y ∧ py - y ≤ 1 ∧ ¬ (px = x ∧ py = y)) := by
  simp only [neighbours, List.mem_cons, Prod.mk.injEq, List.mem_singleton, List.not_mem_nil,
    or_false]
  omega

/-- For a column `px` on the board, the index `w*py + px` lies below row `k`
    exactly when `py < k`. -/
theorem idx_lt_iff {w px py k : Int} (hx : 0 ≤ px ∧ px < w) :
    w * py + px < w * k ↔ py < k := by
  constructor
  · intro h
    by_contra hk
    have : w * k ≤ w * py := Int.mul_le_mul_of_nonneg_left (by omega) (by omega)
    omega
  · intro h
    have : w * (py + 1) ≤ w * k := Int.mul_le_mul_of_nonneg_left (by omega) (by omega)
    rw [Int.mul_add, Int.mul_one] at this
    omega

theorem idx_emod {w px py : Int} (hx : 0 ≤ px ∧ px < w) : (w * py + px) % w = px := by
  rw [Int.add_comm, Int.add_mul_emod_self_left]
  exact Int.emod_eq_of_lt hx.1 hx.2

/-- The offsets visited around an on-board cell `(px, py)` are the `(dy, dx)`
    in `-1..1` that stay on the board. -/
theorem mem_fill_offsets {bd : Board} {px py : Int} (hb : Inb bd px py) (dy dx : Int) :
    (dy, dx) ∈ fill_offsets bd (bd.w * py + px) ↔
      (-1 ≤ dy ∧ dy ≤ 1 ∧ -1 ≤ dx ∧ dx ≤ 1 ∧ Inb bd (px + dx) (py + dy)) := by
  obtain ⟨hx0, hx1, hy0, hy1⟩ := hb
  have e1 : (bd.w * py + px < bd.w) ↔ py < 1 := by
    have := @idx_lt_iff bd.w px py 1 ⟨hx0, hx1⟩
    rw [Int.mul_one] at this
    exact this
  have e2 : (bd.w * py + px ≥ bd.w * (bd.h - 1)) ↔ ¬ py < bd.h - 1 := by
    have := @idx_lt_iff bd.w px py (bd.h - 1) ⟨hx0, hx1⟩
    constructor
    · intro h hlt; have := this.mpr hlt; omega
    · intro h; by_contra hge; exact h (this.mp (by omega))
  unfold fill_offsets
  refine Iff.trans List.mem_product ?_
  rw [mem_intRange, mem_intRange, idx_emod ⟨hx0, hx1⟩]
  simp only [e1, e2]
  unfold Inb
  split_ifs <;> omega

theorem nodup_fill_offsets (bd : Board) (pos : Int) : (fill_offsets bd pos).Nodup := by
  unfold fill_offsets
  exact List.Nodup.product (nodup_intRange _ _) (nodup_intRange _ _)

/-- In a list without duplicates, a predicate that singles out `t` counts
    1 if `t` is in the list and 0 otherwise. -/
theorem countP_unique {α : Type} [DecidableEq α] (p : α → Bool) (t : α) :
    ∀ (L : List α), L.Nodup → (∀ a ∈ L, p a = true ↔ a = t) →
      L.countP p = if t ∈ L then 1 else 0 := by
  intro L
  induction L with
  | nil => intro _ _; simp
  | cons a L ih =>
    intro hn hp
    rw [List.nodup_cons] at hn
    have hL := ih hn.2 (fun b hb => hp b (List.mem_cons_of_mem _ hb))
    rw [List.countP_cons, hL]
    by_cases hat : a = t
    · subst hat
      have : p a = true := (hp a (List.mem_cons_self _ _)).mpr rfl
      simp [this, hn.1]
    · have h1 : ¬ p a = true := fun h => hat ((hp a (List.mem_cons_self _ _)).mp h)
      have h2 : (t ∈ a :: L) ↔ t ∈ L := by
        rw [List.mem_cons]
        constructor
        · rintro (h | h)
          · exact absurd h.symm hat
          · exact h
        · exact Or.inr
      simp only [h1, if_false, h2, Nat.add_zero, Bool.false_eq_true]

/-- How often the loops of `board_fill` around the mine `(px, py)` hit the
    cell `(x, y)`: once if it is a neighbour, never otherwise. -/
theorem fill_hits {bd : Board} {px py x y : Int} (hp : Inb bd px py) (hb : Inb bd x y)
    (hne : ¬ (px = x ∧ py = y)) :
    (fill_offsets bd (bd.w * py + px)).countP (bumps bd (bd.w * py + px) (bd.w * y + x)) =
      if (px, py) ∈ neighbours x y then 1 else 0 := by
  have hiff : (y - py, x - px) ∈ fill_offsets bd (bd.w * py + px) ↔
      (px, py) ∈ neighbours x y := by
    rw [mem_fill_offsets hp, mem_neighbours]
    unfold Inb
    unfold Inb at hb
    omega
  rw [countP_unique (bumps bd (bd.w * py + px) (bd.w * y + x)) (y - py, x - px) _
    (nodup_fill_offsets _ _)]
  · by_cases hm : (px, py) ∈ neighbours x y
    · rw [if_pos hm, if_pos (hiff.mpr hm)]
    · rw [if_neg hm, if_neg (fun h => hm (hiff.mp h))]
  · rintro ⟨dy, dx⟩ hmem
    have hm := (mem_fill_offsets hp dy dx).mp hmem
    obtain ⟨-, -, -, -, hib⟩ := hm
    unfold bumps
    simp only [decide_eq_true_eq, Prod.mk.injEq]
    constructor
    · rintro ⟨-, heq⟩
      have h2 : bd.w * y + x = bd.w * (py + dy) + (px + dx) := by
        rw [heq, Int.mul_add]; omega
      have := idx_inj ⟨hb.1, hb.2.1⟩ ⟨hib.1, hib.2.1⟩ h2
      omega
    · rintro ⟨h1, h2⟩
      refine ⟨by omega, ?_⟩
      have hy : y = py + dy := by omega
      have hx : x = px + dx := by omega
      rw [hy, hx, Int.mul_add]; omega

/-- Every array index is the index of an on-board cell. -/
theorem pos_coords {bd : Board} (hw : WF bd) {pos : Int} (h0 : 0 ≤ pos)
    (h1 : pos < bd.data.length) : ∃ px py, Inb bd px py ∧ pos = bd.w * py + px := by
  obtain ⟨hw0, hh0, hl⟩ := hw
  refine ⟨pos % bd.w, pos / bd.w, ⟨Int.emod_nonneg _ (by omega), Int.emod_lt_of_pos _ hw0,
    Int.ediv_nonneg h0 (by omega), ?_⟩, (Int.ediv_add_emod pos bd.w).symm⟩
  apply Int.ediv_lt_of_lt_mul hw0
  rw [Int.mul_comm]
  omega

theorem countP_or {α : Type} (f g : α → Bool) :
    ∀ (L : List α), (∀ a ∈ L, ¬ (f a = true ∧ g a = true)) →
      L.countP (fun a => f a || g a) = L.countP f + L.countP g := by
  intro L
  induction L with
  | nil => intro _; simp
  | cons a L ih =>
    intro h
    have hL := ih (fun b hb => h b (List.mem_cons_of_mem _ hb))
    have ha := h a (List.mem_cons_self _ _)
    rw [List.countP_cons, List.countP_cons, List.countP_cons, hL]
    cases hf : f a <;> cases hg : g a <;> simp_all <;> omega

theorem isMine_fill_place {bd : Board} (hw : WF bd) {px py : Int} (hp : Inb bd px py)
    (q : Int × Int) :
    isMine (fill_place bd (bd.w * py + px)) q = (isMine bd q || decide (q = (px, py))) := by
  have hr := idx_range hw hp
  have hfr := fill_place_frame bd (bd.w * py + px)
  unfold isMine
  rw [hfr.1, hfr.2.1]
  obtain ⟨x, y⟩ := q
  simp only [Prod.mk.injEq]
  by_cases hb : 0 ≤ x ∧ x < bd.w ∧ 0 ≤ y ∧ y < bd.h
  · obtain ⟨-, -, c3, -⟩ := fill_place_cell bd (bd.w * py + px) (bd.w * y + x) hr.1 hr.2
    rw [c3]
    have e : (bd.w * y + x = bd.w * py + px) ↔ (x = px ∧ y = py) := by
      constructor
      · intro h; exact idx_inj ⟨hb.1, hb.2.1⟩ ⟨hp.1, hp.2.1⟩ h
      · rintro ⟨rfl, rfl⟩; rfl
    simp only [hb, and_self, decide_True, Bool.true_and, e]
  · have hne : ¬ (x = px ∧ y = py) := by
      rintro ⟨rfl, rfl⟩; exact hb hp
    simp [hb, hne]

theorem neighbourMines_fill_place {bd : Board} (hw : WF bd) {px py : Int}
    (hp : Inb bd px py) (hnb : (bd.cell (bd.w * py + px)).bomb = false) (x y : Int) :
    neighbourMines (fill_place bd (bd.w * py + px)) x y =
      neighbourMines bd x y + if (px, py) ∈ neighbours x y then 1 else 0 := by
  unfold neighbourMines
  have e : isMine (fill_place bd (bd.w * py + px)) =
      fun q => (isMine bd q || decide (q = (px, py))) := by
    funext q; exact isMine_fill_place hw hp q
  rw [e, countP_or]
  · have h := countP_unique (fun q => decide (q = (px, py))) (px, py) _ (nodup_neighbours x y)
      (fun a _ => by simp)
    rw [h]
    by_cases hm : (px, py) ∈ neighbours x y
    · simp [hm]
    · simp [hm]
  · rintro ⟨a, b⟩ _ ⟨h1, h2⟩
    simp only [decide_eq_true_eq, Prod.mk.injEq] at h2
    obtain ⟨rfl, rfl⟩ := h2
    unfold isMine at h1
    simp [hnb] at h1

/-- Placing a mine keeps the counts right. -/
theorem fill_place_countsOK {bd : Board} (hw : WF bd) (hc : CountsOK bd) {px py : Int}
    (hp : Inb bd px py) (hnb : (bd.cell (bd.w * py + px)).bomb = false) :
    CountsOK (fill_place bd (bd.w * py + px)) := by
  have hr := idx_range hw hp
  have hfr := fill_place_frame bd (bd.w * py + px)
  intro x y hb
  have hb' : Inb bd x y := by unfold Inb at hb ⊢; rw [hfr.1, hfr.2.1] at hb; exact hb
  have hr' := idx_range hw hb'
  rw [hfr.1]
  obtain ⟨-, -, c3, c4⟩ := fill_place_cell bd (bd.w * py + px) (bd.w * y + x) hr.1 hr.2
  rw [c3, c4, neighbourMines_fill_place hw hp hnb]
  have hold := hc x y hb'
  by_cases hs : px = x ∧ py = y
  · obtain ⟨rfl, rfl⟩ := hs
    simp
  · have hne : ¬ (bd.w * y + x = bd.w * py + px) := by
      intro h
      have := idx_inj ⟨hb'.1, hb'.2.1⟩ ⟨hp.1, hp.2.1⟩ h
      exact hs ⟨this.1.symm, this.2.symm⟩
    simp only [hne, decide_False, Bool.or_false, if_false]
    cases hbm : (bd.cell (bd.w * y + x)).bomb
    · simp only [hbm, Bool.false_eq_true, if_false] at hold
      simp only [Bool.false_eq_true, if_false, hr', and_self, if_true]
      rw [hold, fill_hits hp hb' hs]
      push_cast
      rfl
    · simp only [hbm, if_true] at hold
      simp [hold]

/-- A completed `fill_loop` keeps the counts right. -/
theorem fill_loop_countsOK (ch : Int) (draws : List Nat) (n : Int) (bd bd' : Board)
    (hw : WF bd) (hc : CountsOK bd) (hf : fill_loop ch draws n bd = some bd') :
    CountsOK bd' := by
  have key := fill_loop_inv (fun _ b => WF b ∧ CountsOK b) ch (fun _ _ h => h.1)
    (by
      intro k b pos hI _ h0 h1 _ hb
      obtain ⟨px, py, hp, rfl⟩ := pos_coords hI.1 h0 h1
      exact ⟨(fill_place_frame b _).frame_wf hI.1, fill_place_countsOK hI.1 hI.2 hp hb⟩)
    draws n bd bd' ⟨hw, hc⟩ hf
  exact key.2

theorem board_make_countsOK (w h nbombs : Int) : CountsOK (board_make w h nbombs) := by
  intro x y _
  have hz : neighbourMines (board_make w h nbombs) x y = 0 := by
    unfold neighbourMines
    rw [List.countP_eq_zero]
    intro a _
    unfold isMine
    rw [board_make_cell]
    simp [data_init]
  rw [board_make_cell, hz]
  simp [data_init]

theorem SameField.field_refl (a : Board) : SameField a a :=
  ⟨rfl, rfl, rfl, rfl, rfl, rfl, fun _ => ⟨rfl, rfl, rfl⟩⟩

theorem SameField.field_trans {a b c : Board} (h1 : SameField a b) (h2 : SameField b c) :
    SameField a c :=
  ⟨h2.w.trans h1.w, h2.h.trans h1.h, h2.len.trans h1.len, h2.nbombs.trans h1.nbombs,
    h2.nopen.trans h1.nopen, h2.startTime.trans h1.startTime,
    fun j => ⟨(h2.cells j).1.trans (h1.cells j).1, (h2.cells j).2.1.trans (h1.cells j).2.1,
      (h2.cells j).2.2.trans (h1.cells j).2.2⟩⟩

theorem shift_step_field (bd : Board) (dir : Direction) (bd1 : Board)
    (hs : shift_step bd dir = some bd1) (hc : Inb bd bd.curx bd.cury) :
    SameField bd bd1 ∧ Inb bd1 bd1.curx bd1.cury ∧ bd1.data = bd.data ∧
      bd1.nflags = bd.nflags := by
  unfold Inb at hc
  cases dir <;> simp only [shift_step] at hs <;> split at hs <;> cases hs <;>
    (refine ⟨⟨rfl, rfl, rfl, rfl, rfl, rfl, fun _ => ⟨rfl, rfl, rfl⟩⟩, ?_, rfl, rfl⟩
     unfold Inb
     simp only
     omega)

theorem shift_loop_field (dir : Direction) (ntimes : Int) : ∀ (k : Nat) (i : Int)
    (bd bd' : Board), WF bd → Inb bd bd.curx bd.cury →
    shift_loop dir ntimes k i bd = some bd' →
    SameField bd bd' ∧ Inb bd' bd'.curx bd'.cury ∧ bd'.data = bd.data ∧
      bd'.nflags = bd.nflags := by
  intro k
  induction k with
  | zero =>
    intro i bd bd' _ hc hs
    simp only [shift_loop, Option.some.injEq] at hs
    subst hs
    exact ⟨SameField.field_refl bd, hc, rfl, rfl⟩
  | succ k ih =>
    intro i bd bd' hw hc hs
    unfold shift_loop at hs
    by_cases hi : i < ntimes
    · rw [if_pos hi] at hs
      cases hst : shift_step bd dir with
      | none =>
        rw [hst] at hs
        simp only at hs
        split at hs
        · simp only [Option.some.injEq] at hs
          subst hs
          exact ⟨SameField.field_refl bd, hc, rfl, rfl⟩
        · exact absurd hs (by simp)
      | some bd1 =>
        rw [hst] at hs
        simp only at hs
        obtain ⟨f1, c1, d1, n1⟩ := shift_step_field bd dir bd1 hst hc
        have w1 : WF bd1 := by
          unfold WF at hw ⊢; rw [f1.w, f1.h, f1.len]; exact hw
        obtain ⟨f2, c2, d2, n2⟩ := ih (i + 1) bd1 bd' w1 c1 hs
        exact ⟨f1.field_trans f2, c2, d2.trans d1, n2.trans n1⟩
    · rw [if_neg hi] at hs
      simp only [Option.some.injEq] at hs
      subst hs
      exact ⟨SameField.field_refl bd, hc, rfl, rfl⟩

theorem board_flag_field (bd : Board) :
    SameField bd (board_flag bd) ∧ (board_flag bd).curx = bd.curx ∧
      (board_flag bd).cury = bd.cury := by
  unfold board_flag
  simp only
  split
  · exact ⟨SameField.field_refl bd, rfl, rfl⟩
  · have hfr := setCell_frame bd (bd.w * bd.cury + bd.curx)
      { bd.cell (bd.w * bd.cury + bd.curx) with
        flag := !(bd.cell (bd.w * bd.cury + bd.curx)).flag }
    refine ⟨⟨hfr.1, hfr.2.1, hfr.2.2.1, hfr.2.2.2.2.2.1, hfr.2.2.2.2.2.2.2.1,
      hfr.2.2.2.2.2.2.2.2, ?_⟩, hfr.2.2.2.1, hfr.2.2.2.2.1⟩
    intro j
    show ((bd.setCell _ _).cell j).open_ = _ ∧ ((bd.setCell _ _).cell j).bomb = _ ∧
      ((bd.setCell _ _).cell j).count = _
    rw [cell_setCell]
    split
    · rename_i hj; rw [hj.1]; exact ⟨rfl, rfl, rfl⟩
    · exact ⟨rfl, rfl, rfl⟩

theorem neighbourMines_congr {a b : Board} (hw : b.w = a.w) (hh : b.h = a.h)
    (hb : ∀ j, (b.cell j).bomb = (a.cell j).bomb) (x y : Int) :
    neighbourMines b x y = neighbourMines a x y := by
  unfold neighbourMines
  have : isMine b = isMine a := by
    funext q; unfold isMine; rw [hw, hh, hb]
  rw [this]

theorem CountsOK_congr {a b : Board} (hw : b.w = a.w) (hh : b.h = a.h)
    (hb : ∀ j, (b.cell j).bomb = (a.cell j).bomb)
    (hc : ∀ j, (b.cell j).count = (a.cell j).count) (h : CountsOK a) : CountsOK b := by
  intro x y hxy
  have := h x y (by unfold Inb at hxy ⊢; rw [hw, hh] at hxy; exact hxy)
  rw [hw, hb, hc, neighbourMines_congr hw hh hb]
  exact this

/-- The invariant does not depend on the cursor, the flags or `nflags`. -/
theorem Inv.of_field {w h nb : Int} {a b : Board} (hi : Inv w h nb a) (hf : SameField a b)
    (hc : Inb b b.curx b.cury) : Inv w h nb b where
  wf := by
    have := hi.wf
    unfold WF at this ⊢; rw [hf.w, hf.h, hf.len]; exact this
  dims := by
    rw [hf.w, hf.h, hf.nbombs]; exact hi.dims
  cur := hc
  nopen := by
    have e : openCount b = openCount a :=
      countP_congr_cells (fun d => d.open_) a b hf.len (fun j => (hf.cells j).1)
    rw [hf.nopen, e]; exact hi.nopen
  counts := CountsOK_congr hf.w hf.h (fun j => (hf.cells j).2.1) (fun j => (hf.cells j).2.2)
    hi.counts
  safe := by
    intro j hj
    rw [(hf.cells j).1] at hj
    rw [(hf.cells j).2.1]
    exact hi.safe j hj
  pre := by
    intro hs
    rw [hf.startTime] at hs
    have e1 : bombCount b = bombCount a :=
      countP_congr_cells (fun d => d.bomb) a b hf.len (fun j => (hf.cells j).2.1)
    have e2 : openCount b = openCount a :=
      countP_congr_cells (fun d => d.open_) a b hf.len (fun j => (hf.cells j).1)
    rw [e1, e2]; exact hi.pre hs
  post := by
    intro hs
    rw [hf.startTime] at hs
    have e1 : bombCount b = bombCount a :=
      countP_congr_cells (fun d => d.bomb) a b hf.len (fun j => (hf.cells j).2.1)
    rw [e1]; exact hi.post hs

/-- On a board with right counts a flood path that starts on a cell that is
    not a mine never reaches a mine. -/
theorem FloodPath.no_mine {bd : Board} (hc : CountsOK bd) {x y cx cy : Int}
    (p : FloodPath bd x y cx cy) :
    (bd.cell (bd.w * y + x)).bomb = false → (bd.cell (bd.w * cy + cx)).bomb = false := by
  induction p with
  | here _ _ _ _ => exact fun h => h
  | step x y x' y' cx cy hb _ hz hadj q ih =>
    intro hnb
    apply ih
    have h1 := hc x y hb
    rw [hnb] at h1
    simp only [Bool.false_eq_true, if_false] at h1
    rw [hz] at h1
    have h2 : neighbourMines bd x y = 0 := by omega
    unfold neighbourMines at h2
    rw [List.countP_eq_zero] at h2
    have hmem : (x', y') ∈ neighbours x y := by
      rw [mem_neighbours]
      unfold Adj4 at hadj
      omega
    have h3 := h2 (x', y') hmem
    have hb' := q.start_inb
    unfold isMine at h3
    unfold Inb at hb'
    simp only [hb', and_self, decide_True, Bool.true_and] at h3
    cases hbm : (bd.cell (bd.w * y' + x')).bomb
    · rfl
    · exact absurd hbm h3

theorem openCount_zero {bd : Board} (h : openCount bd = 0) (j : Int) :
    (bd.cell j).open_ = false := by
  by_cases hr : 0 ≤ j ∧ j < bd.data.length
  · have hlt : j.toNat < bd.data.length := by omega
    rw [cell_eq_getElem bd j hr.1 hlt]
    unfold openCount at h
    rw [List.countP_eq_zero] at h
    have := h bd.data[j.toNat] (List.getElem_mem _)
    cases ho : bd.data[j.toNat].open_
    · rfl
    · exact absurd ho this
  · rw [cell_out bd j hr]; rfl

/-- The mine generation of the first `board_open` keeps the invariant. -/
theorem Inv.fill {w h nb : Int} {bd : Board} (hi : Inv w h nb bd)
    (hs : bd.startTime = -1) {x y : Int} {draws : List Nat} {now : Int} (hnow : now ≠ -1)
    {bd1 : Board} (hf : board_fill bd x y draws now = some bd1) :
    Inv w h nb bd1 ∧ bd1.startTime = now ∧ (bd1.cell (bd.w * y + x)).bomb = false ∧
      bd1.curx = bd.curx ∧ bd1.cury = bd.cury ∧ bd1.w = bd.w ∧ bd1.nflags = bd.nflags ∧
      ∀ j, (bd1.cell j).open_ = false ∧ (bd1.cell j).flag = (bd.cell j).flag := by
  unfold board_fill at hf
  cases hl : fill_loop (bd.w * y + x) draws bd.nbombs bd with
  | none => rw [hl] at hf; exact absurd hf (by simp)
  | some b =>
    rw [hl] at hf
    simp only [Option.map_some', Option.some.injEq] at hf
    subst hf
    obtain ⟨hwb, hfr, hcells⟩ := fill_loop_keeps _ _ _ _ _ hi.wf hl
    obtain ⟨f1, f2, f3, f4, f5, f6, f7, f8, -⟩ := hfr
    have hbc := fill_loop_bombCount _ _ _ _ _ hi.wf hl
    have hco := fill_loop_countsOK _ _ _ _ _ hi.wf hi.counts hl
    have hcl : ∀ j, (b.cell j).open_ = false := by
      intro j; rw [(hcells j).1]; exact openCount_zero (hi.pre hs).2 j
    have hbm0 : ∀ j, (bd.cell j).bomb = false := by
      intro j
      by_cases hr : 0 ≤ j ∧ j < bd.data.length
      · have hlt : j.toNat < bd.data.length := by omega
        rw [cell_eq_getElem bd j hr.1 hlt]
        have h0 := (hi.pre hs).1
        unfold bombCount at h0
        rw [List.countP_eq_zero] at h0
        have := h0 bd.data[j.toNat] (List.getElem_mem _)
        cases ho : bd.data[j.toNat].bomb
        · rfl
        · exact absurd ho this
      · rw [cell_out bd j hr]; rfl
    have hex := fill_loop_excludes _ _ _ _ _ hi.wf (hbm0 _) hl
    have hoc : openCount b = openCount bd :=
      countP_congr_cells (fun d => d.open_) bd b f3 (fun j => (hcells j).1)
    refine ⟨⟨hwb, ?_, ?_, ?_, hco, ?_, ?_, ?_⟩, rfl, hex, f4, f5, f1, f7,
      fun j => ⟨hcl j, (hcells j).2.1⟩⟩
    · show b.w = w ∧ b.h = h ∧ b.nbombs = nb
      rw [f1, f2, f6]; exact hi.dims
    · show Inb b b.curx b.cury
      unfold Inb; rw [f1, f2, f4, f5]; exact hi.cur
    · show b.nopen = (openCount b : Int)
      rw [f8, hoc]; exact hi.nopen
    · intro j hj
      have : (b.cell j).open_ = true := hj
      rw [hcl j] at this
      exact absurd this (by simp)
    · intro hst
      exact absurd (show now = -1 from hst) hnow
    · intro _
      show (bombCount b : Int) = max nb 0
      rw [hbc, (hi.pre hs).1, hi.dims.2.2]
      simp

/-- A flood from a closed cell that is not a mine keeps the invariant. -/
theorem Inv.flood {w h nb : Int} {bd : Board} (hi : Inv w h nb bd) (hs : bd.startTime ≠ -1)
    {x y : Int} (hb : Inb bd x y) (hc : (bd.cell (bd.w * y + x)).open_ = false)
    (hm : (bd.cell (bd.w * y + x)).bomb = false) {bd' : Board}
    (hf : board_flood bd x y = some bd') : Inv w h nb bd' := by
  have F := flood_aux_ok _ bd x y bd' hi.wf hb hc hf
  have O := F.opens
  refine ⟨O.opens_wf hi.wf, ?_, ?_, ?_, CountsOK_congr O.w O.h O.bomb O.count hi.counts, ?_, ?_, ?_⟩
  · rw [O.w, O.h, O.nbombs]; exact hi.dims
  · unfold Inb; rw [O.w, O.h, O.curx, O.cury]; exact hi.cur
  · have := O.nopen
    have := hi.nopen
    omega
  · intro j hj
    rw [O.bomb]
    cases ho : (bd.cell j).open_
    · by_cases hr : 0 ≤ j ∧ j < bd.data.length
      · obtain ⟨cx, cy, hcb, rfl⟩ := pos_coords hi.wf hr.1 hr.2
        exact (F.sound cx cy hcb ⟨ho, hj⟩).no_mine hi.counts hm
      · rw [cell_out bd j hr]; rfl
    · exact hi.safe j ho
  · intro hst
    rw [O.startTime] at hst
    exact absurd hst hs
  · intro _
    have e : bombCount bd' = bombCount bd :=
      countP_congr_cells (fun d => d.bomb) bd bd' O.len O.bomb
    rw [e]; exact hi.post hs

/-- The three ways in which a call of `board_open` returns. -/
theorem board_open_cases {bd : Board} {draws : List Nat} {now : Int} {r : Bool} {bd' : Board}
    (h : board_open bd draws now = some (r, bd')) :
    ∃ bd1, (if bd.startTime = -1 then board_fill bd bd.curx bd.cury draws now else some bd) =
        some bd1 ∧
      ((((bd1.cell (bd.w * bd.cury + bd.curx)).flag = true ∨
          (bd1.cell (bd.w * bd.cury + bd.curx)).open_ = true) ∧ r = false ∧ bd' = bd1) ∨
       ((bd1.cell (bd.w * bd.cury + bd.curx)).flag = false ∧
          (bd1.cell (bd.w * bd.cury + bd.curx)).open_ = false ∧
          (bd1.cell (bd.w * bd.cury + bd.curx)).bomb = true ∧ r = true ∧ bd' = bd1) ∨
       ((bd1.cell (bd.w * bd.cury + bd.curx)).flag = false ∧
          (bd1.cell (bd.w * bd.cury + bd.curx)).open_ = false ∧
          (bd1.cell (bd.w * bd.cury + bd.curx)).bomb = false ∧ r = false ∧
          board_flood bd1 bd1.curx bd1.cury = some bd')) := by
  unfold board_open at h
  simp only at h
  obtain ⟨bd1, h1, h2⟩ := Option.bind_eq_some.mp h
  refine ⟨bd1, h1, ?_⟩
  cases hfl : (bd1.cell (bd.w * bd.cury + bd.curx)).flag
  · cases hop : (bd1.cell (bd.w * bd.cury + bd.curx)).open_
    · cases hbm : (bd1.cell (bd.w * bd.cury + bd.curx)).bomb
      · simp only [hfl, hop, hbm, Bool.or_self, Bool.false_eq_true, if_false] at h2
        cases hfd : board_flood bd1 bd1.curx bd1.cury with
        | none => rw [hfd] at h2; exact absurd h2 (by simp)
        | some b =>
          rw [hfd] at h2
          simp only [Option.map_some', Option.some.injEq, Prod.mk.injEq] at h2
          refine Or.inr (Or.inr ⟨rfl, rfl, rfl, h2.1.symm, ?_⟩)
          rw [h2.2]
      · simp only [hfl, hop, hbm, Bool.or_self, Bool.false_eq_true, if_false, if_true,
          Option.some.injEq, Prod.mk.injEq] at h2
        exact Or.inr (Or.inl ⟨rfl, rfl, rfl, h2.1.symm, h2.2.symm⟩)
    · simp only [hfl, hop, Bool.or_true, if_true, Option.some.injEq, Prod.mk.injEq] at h2
      exact Or.inl ⟨Or.inr rfl, h2.1.symm, h2.2.symm⟩
  · simp only [hfl, Bool.true_or, if_true, Option.some.injEq, Prod.mk.injEq] at h2
    exact Or.inl ⟨Or.inl rfl, h2.1.symm, h2.2.symm⟩

/-- A call of `board_open` keeps the invariant. -/
theorem Inv.opened {w h nb : Int} {bd : Board} (hi : Inv w h nb bd)
    {draws : List Nat} {now : Int} (hnow : now ≠ -1) {r : Bool} {bd' : Board}
    (ho : board_open bd draws now = some (r, bd')) : Inv w h nb bd' ∧ bd'.startTime ≠ -1 := by
  obtain ⟨bd1, h1, hcase⟩ := board_open_cases ho
  have hpre : Inv w h nb bd1 ∧ bd1.startTime ≠ -1 ∧ bd1.curx = bd.curx ∧ bd1.cury = bd.cury ∧
      bd1.w = bd.w := by
    by_cases hs : bd.startTime = -1
    · rw [if_pos hs] at h1
      obtain ⟨a1, a2, -, a4, a5, a6, -⟩ := hi.fill hs hnow h1
      exact ⟨a1, by rw [a2]; exact hnow, a4, a5, a6⟩
    · rw [if_neg hs] at h1
      simp only [Option.some.injEq] at h1
      subst h1
      exact ⟨hi, hs, rfl, rfl, rfl⟩
  obtain ⟨i1, s1, cx, cy, cw⟩ := hpre
  rcases hcase with ⟨-, -, e⟩ | ⟨-, -, -, -, e⟩ | ⟨-, hop, hbm, -, hfl⟩
  · rw [e]; exact ⟨i1, s1⟩
  · rw [e]; exact ⟨i1, s1⟩
  · rw [← cx, ← cy, ← cw] at hop hbm
    have i2 := i1.flood s1 i1.cur hop hbm hfl
    have F := flood_aux_ok _ bd1 _ _ bd' i1.wf i1.cur hop hfl
    exact ⟨i2, by rw [F.opens.startTime]; exact s1⟩

theorem board_make_inv (w h nb : Int) (hw : 0 < w) (hh : 0 < h) :
    Inv w h nb (board_make w h nb) := by
  have hoc : openCount (board_make w h nb) = 0 := by
    unfold openCount board_make
    rw [List.countP_eq_zero]
    intro a ha
    rw [List.eq_of_mem_replicate ha]
    simp [data_init]
  have hbc : bombCount (board_make w h nb) = 0 := by
    unfold bombCount board_make
    rw [List.countP_eq_zero]
    intro a ha
    rw [List.eq_of_mem_replicate ha]
    simp [data_init]
  refine ⟨board_make_wf w h nb hw hh, ⟨rfl, rfl, rfl⟩, ?_, ?_, board_make_countsOK w h nb,
    ?_, fun _ => ⟨hbc, hoc⟩, ?_⟩
  · show Inb _ 0 0
    unfold Inb
    exact ⟨Int.le_refl 0, hw, Int.le_refl 0, hh⟩
  · rw [hoc]; rfl
  · intro j _
    rw [board_make_cell]; rfl
  · intro hs
    exact absurd rfl hs

/-- Every reachable board satisfies the invariant. -/
theorem Reachable.inv {w h nb : Int} (hw : 0 < w) (hh : 0 < h) {bd : Board}
    (hr : Reachable w h nb bd) : Inv w h nb bd := by
  induction hr with
  | fresh => exact board_make_inv w h nb hw hh
  | shift bd dir n bd' _ hs ih =>
    obtain ⟨f, c, -, -⟩ := shift_loop_field dir n n.toNat 0 bd bd' ih.wf ih.cur hs
    exact ih.of_field f c
  | flag bd _ ih =>
    obtain ⟨f, cx, cy⟩ := board_flag_field bd
    refine ih.of_field f ?_
    unfold Inb
    rw [f.w, f.h, cx, cy]
    exact ih.cur
  | opened bd draws now r bd' _ hnow ho ih =>
    exact (ih.opened hnow ho).1

/-- Two disjoint properties cover a list exactly when every element without
    the second has the first. -/
theorem countP_cover {α : Type} (p q : α → Bool) :
    ∀ (L : List α), (∀ a ∈ L, p a = true → q a = false) →
      L.countP p + L.countP q ≤ L.length ∧
      (L.countP p + L.countP q = L.length ↔ ∀ a ∈ L, q a = false → p a = true) := by
  intro L
  induction L with
  | nil => intro _; simp
  | cons a L ih =>
    intro h
    obtain ⟨hle, hiff⟩ := ih (fun b hb => h b (List.mem_cons_of_mem _ hb))
    have ha := h a (List.mem_cons_self _ _)
    rw [List.countP_cons, List.countP_cons, List.length_cons]
    cases hp : p a <;> cases hq : q a
    · simp only [Bool.false_eq_true, if_false, Nat.add_zero]
      refine ⟨by omega, ?_⟩
      constructor
      · intro heq; omega
      · intro hall
        have := hall a (List.mem_cons_self _ _) hq
        rw [hp] at this
        exact absurd this (by simp)
    · simp only [Bool.false_eq_true, if_false, if_true, Nat.add_zero]
      refine ⟨by omega, ?_⟩
      constructor
      · intro heq b hb hqb
        rcases List.mem_cons.mp hb with rfl | hb'
        · rw [hq] at hqb; exact absurd hqb (by simp)
        · exact hiff.mp (by omega) b hb' hqb
      · intro hall
        have := hiff.mpr (fun b hb => hall b (List.mem_cons_of_mem _ hb))
        omega
    · simp only [Bool.false_eq_true, if_false, if_true, Nat.add_zero]
      refine ⟨by omega, ?_⟩
      constructor
      · intro heq b hb hqb
        rcases List.mem_cons.mp hb with rfl | hb'
        · exact hp
        · exact hiff.mp (by omega) b hb' hqb
      · intro hall
        have := hiff.mpr (fun b hb => hall b (List.mem_cons_of_mem _ hb))
        omega
    · rw [ha hp] at hq
      exact absurd hq (by simp)

theorem board_fill_some {bd : Board} {x y : Int} {draws : List Nat} {now : Int} {bd' : Board}
    (hf : board_fill bd x y draws now = some bd') :
    ∃ b, fill_loop (bd.w * y + x) draws bd.nbombs bd = some b ∧
      bd' = { b with startTime := now } := by
  unfold board_fill at hf
  cases hl : fill_loop (bd.w * y + x) draws bd.nbombs bd with
  | none => rw [hl] at hf; exact absurd hf (by simp)
  | some b =>
    rw [hl] at hf
    simp only [Option.map_some', Option.some.injEq] at hf
    exact ⟨b, rfl, hf.symm⟩

theorem openCount_pos {bd : Board} {j : Int} (h : (bd.cell j).open_ = true) :
    0 < openCount bd := by
  by_cases hr : 0 ≤ j ∧ j < bd.data.length
  · have hlt : j.toNat < bd.data.length := by omega
    rw [cell_eq_getElem bd j hr.1 hlt] at h
    exact List.countP_pos_iff.mpr ⟨bd.data[j.toNat], List.getElem_mem _, h⟩
  · rw [cell_out bd j hr] at h
    exact absurd h (by simp [data_init])

theorem board_set_curx (bd : Board) (a : Int) (h : a = bd.curx) : { bd with curx := a } = bd := by
  subst h; cases bd; rfl

theorem board_set_cury (bd : Board) (a : Int) (h : a = bd.cury) : { bd with cury := a } = bd := by
  subst h; cases bd; rfl

/-- The loop of `board_shiftcursor` with `k` iterations left moves the cursor
    `k` steps, stopping at the edge, when `ntimes` is below `INT_MAX`. -/
theorem shift_loop_clamp (dir : Direction) (ntimes : Int) (hn : ntimes < INT_MAX) :
    ∀ (k : Nat) (i : Int) (bd : Board), Inb bd bd.curx bd.cury → i + (k : Int) = ntimes →
      shift_loop dir ntimes k i bd = some (shifted bd dir k) := by
  intro k
  induction k with
  | zero =>
    intro i bd hc _
    unfold Inb at hc
    simp only [shift_loop, Option.some.injEq]
    cases dir <;> simp only [shifted, Nat.cast_zero, Int.sub_zero, Int.add_zero]
    · exact (board_set_cury bd _ (by omega)).symm
    · exact (board_set_curx bd _ (by omega)).symm
    · exact (board_set_cury bd _ (by omega)).symm
    · exact (board_set_curx bd _ (by omega)).symm
  | succ k ih =>
    intro i bd hc hik
    unfold Inb at hc
    have hi : i < ntimes := by push_cast at hik; omega
    unfold shift_loop
    rw [if_pos hi]
    cases dir
    · simp only [shift_step]
      by_cases hm : bd.cury > 0
      · simp only [hm, if_true]
        rw [ih (i + 1) _ (by unfold Inb; simp only; omega) (by push_cast at hik ⊢; omega)]
        simp only [shifted, Option.some.injEq]
        congr 1
        push_cast; omega
      · simp only [hm, if_false, hn, if_true, shifted, Option.some.injEq]
        exact (board_set_cury bd _ (by push_cast; omega)).symm
    · simp only [shift_step]
      by_cases hm : bd.curx < bd.w - 1
      · simp only [hm, if_true]
        rw [ih (i + 1) _ (by unfold Inb; simp only; omega) (by push_cast at hik ⊢; omega)]
        simp only [shifted, Option.some.injEq]
        congr 1
        push_cast; omega
      · simp only [hm, if_false, hn, if_true, shifted, Option.some.injEq]
        exact (board_set_curx bd _ (by push_cast; omega)).symm
    · simp only [shift_step]
      by_cases hm : bd.cury < bd.h - 1
      · simp only [hm, if_true]
        rw [ih (i + 1) _ (by unfold Inb; simp only; omega) (by push_cast at hik ⊢; omega)]
        simp only [shifted, Option.some.injEq]
        congr 1
        push_cast; omega
      · simp only [hm, if_false, hn, if_true, shifted, Option.some.injEq]
        exact (board_set_cury bd _ (by push_cast; omega)).symm
    · simp only [shift_step]
      by_cases hm : bd.curx > 0
      · simp only [hm, if_true]
        rw [ih (i + 1) _ (by unfold Inb; simp only; omega) (by push_cast at hik ⊢; omega)]
        simp only [shifted, Option.some.injEq]
        congr 1
        push_cast; omega
      · simp only [hm, if_false, hn, if_true, shifted, Option.some.injEq]
        exact (board_set_curx bd _ (by push_cast; omega)).symm

theorem board_eq (a b : Board) (h1 : a.w = b.w) (h2 : a.h = b.h) (h3 : a.data = b.data)
    (h4 : a.curx = b.curx) (h5 : a.cury = b.cury) (h6 : a.nbombs = b.nbombs)
    (h7 : a.nflags = b.nflags) (h8 : a.nopen = b.nopen) (h9 : a.startTime = b.startTime) :
    a = b := by
  cases a; cases b; simp_all

theorem cell_congr_data {a b : Board} (h : a.data = b.data) (j : Int) : a.cell j = b.cell j := by
  unfold Board.cell; rw [h]

theorem setCell_data (bd : Board) (i : Int) (d : Data) (h0 : 0 ≤ i) :
    (bd.setCell i d).data = bd.data.set i.toNat d := by
  unfold Board.setCell; rw [if_pos h0]

theorem set_self_data (bd : Board) (i : Int) (h0 : 0 ≤ i) (h1 : i < bd.data.length) :
    bd.data.set i.toNat (bd.cell i) = bd.data := by
  have hlt : i.toNat < bd.data.length := by omega
  apply List.ext_getElem
  · simp
  · intro n h2 h3
    rw [List.getElem_set]
    split
    · rename_i hn
      subst hn
      rw [cell_eq_getElem bd i h0 hlt]
    · rfl

/-- What `board_flag` does when the cursor cell is closed. -/
theorem board_flag_closed (bd : Board)
    (hop : (bd.cell (bd.w * bd.cury + bd.curx)).open_ = false) :
    (board_flag bd).w = bd.w ∧ (board_flag bd).h = bd.h ∧ (board_flag bd).curx = bd.curx ∧
    (board_flag bd).cury = bd.cury ∧ (board_flag bd).nbombs = bd.nbombs ∧
    (board_flag bd).nopen = bd.nopen ∧ (board_flag bd).startTime = bd.startTime ∧
    (board_flag bd).nflags = bd.nflags +
      (2 * (if (!(bd.cell (bd.w * bd.cury + bd.curx)).flag) = true then 1 else 0) - 1) ∧
    (board_flag bd).data = (bd.setCell (bd.w * bd.cury + bd.curx)
      { bd.cell (bd.w * bd.cury + bd.curx) with
        flag := !(bd.cell (bd.w * bd.cury + bd.curx)).flag }).data := by
  have hfr := setCell_frame bd (bd.w * bd.cury + bd.curx)
    { bd.cell (bd.w * bd.cury + bd.curx) with
      flag := !(bd.cell (bd.w * bd.cury + bd.curx)).flag }
  unfold board_flag
  simp only
  split
  · rename_i h
    rw [hop] at h
    exact absurd h (by simp)
  · exact ⟨hfr.1, hfr.2.1, hfr.2.2.2.1, hfr.2.2.2.2.1, hfr.2.2.2.2.2.1, hfr.2.2.2.2.2.2.2.1,
      hfr.2.2.2.2.2.2.2.2, rfl, rfl⟩

/-- Flagging a closed, unflagged cursor cell and flagging it again gives the
    board back. -/
theorem board_flag_twice (bd : Board) (hw : WF bd) (hc : Inb bd bd.curx bd.cury)
    (hop : (bd.cell (bd.w * bd.cury + bd.curx)).open_ = false)
    (hfl : (bd.cell (bd.w * bd.cury + bd.curx)).flag = false) :
    board_flag (board_flag bd) = bd := by
  have hr := idx_range hw hc
  obtain ⟨a1, a2, a3, a4, a5, a6, a7, a8, a9⟩ := board_flag_closed bd hop
  rw [setCell_data _ _ _ hr.1] at a9
  simp only [hfl, Bool.not_false, if_true] at a8 a9
  have hc1 : (board_flag bd).cell (bd.w * bd.cury + bd.curx) =
      ⟨(bd.cell (bd.w * bd.cury + bd.curx)).open_, (bd.cell (bd.w * bd.cury + bd.curx)).bomb,
        true, (bd.cell (bd.w * bd.cury + bd.curx)).count⟩ := by
    have h := cell_setCell_same bd (bd.w * bd.cury + bd.curx)
      ⟨(bd.cell (bd.w * bd.cury + bd.curx)).open_, (bd.cell (bd.w * bd.cury + bd.curx)).bomb,
        true, (bd.cell (bd.w * bd.cury + bd.curx)).count⟩ hr.1 hr.2
    rw [← h]
    apply cell_congr_data
    rw [a9, setCell_data _ _ _ hr.1]
  have hop1 : ((board_flag bd).cell ((board_flag bd).w * (board_flag bd).cury +
      (board_flag bd).curx)).open_ = false := by
    rw [a1, a3, a4, hc1]; exact hop
  obtain ⟨b1, b2, b3, b4, b5, b6, b7, b8, b9⟩ := board_flag_closed (board_flag bd) hop1
  rw [a1, a3, a4, hc1] at b8 b9
  have h0' : 0 ≤ bd.w * bd.cury + bd.curx := hr.1
  rw [setCell_data _ _ _ h0', a9, List.set_set] at b9
  simp only [Bool.not_true, Bool.false_eq_true, if_false] at b8 b9
  have e : (⟨(bd.cell (bd.w * bd.cury + bd.curx)).open_,
      (bd.cell (bd.w * bd.cury + bd.curx)).bomb, false,
      (bd.cell (bd.w * bd.cury + bd.curx)).count⟩ : Data) =
      bd.cell (bd.w * bd.cury + bd.curx) := by
    cases hd : bd.cell (bd.w * bd.cury + bd.curx) with
    | mk o b f c =>
      rw [hd] at hfl
      simp only at hfl
      simp [hfl]
  rw [e, set_self_data bd _ hr.1 hr.2] at b9
  apply board_eq
  · rw [b1, a1]
  · rw [b2, a2]
  · exact b9
  · rw [b3, a3]
  · rw [b4, a4]
  · rw [b5, a5]
  · rw [b8, a8]
    omega
  · rw [b6, a6]
  · rw [b7, a7]

theorem main_knum_idle_zero (v : Int) : main_knum ⟨v, false⟩ 0 = some (⟨v, false⟩, false) := by
  simp [main_knum]

theorem main_knum_first (v : Int) (d : Nat) (hd : 1 ≤ d) :
    main_knum ⟨v, false⟩ d = some (⟨(d : Int), true⟩, false) := by
  simp [main_knum, hd]

/-- The `case KNUM` while a count is pending: reset with an alert when
    `repeat ≥ (INT_MAX - num) / 10`, else `repeat = 10 * repeat + num`, which
    then fits an `int`. -/
theorem main_knum_pending (v : Int) (d : Nat) (hv : 1 ≤ v) (hd : d ≤ 9) :
    (v ≥ (INT_MAX - (d : Int)) / 10 → main_knum ⟨v, true⟩ d = some (⟨1, false⟩, true)) ∧
    (v < (INT_MAX - (d : Int)) / 10 →
      main_knum ⟨v, true⟩ d = some (⟨10 * v + (d : Int), true⟩, false) ∧
      1 ≤ 10 * v + (d : Int) ∧ 10 * v + (d : Int) ≤ INT_MAX) ∧
    (10 * v + (d : Int) > INT_MAX → v ≥ (INT_MAX - (d : Int)) / 10) := by
  unfold INT_MAX
  refine ⟨?_, ?_, ?_⟩
  · intro h
    simp [main_knum, INT_MAX, h]
  · intro h
    have h1 : ¬ v ≥ (2147483647 - (d : Int)) / 10 := by omega
    have h2 : -2147483647 - 1 ≤ 10 * v ∧ 10 * v ≤ 2147483647 := by omega
    have h3 : -2147483647 - 1 ≤ 10 * v + (d : Int) ∧ 10 * v + (d : Int) ≤ 2147483647 := by
      omega
    refine ⟨?_, by omega, by omega⟩
    simp only [main_knum, INT_MAX, if_true, h1, if_false, int_checked, h2, and_self,
      Option.some_bind, h3, Option.map_some']
  · intro h
    omega

/-- Zeros typed before the first digit leave the repeat state alone. -/
theorem main_knums_zeros (z : Nat) (ds : List Nat) :
    main_knums ⟨1, false⟩ (List.replicate z 0 ++ ds) = main_knums ⟨1, false⟩ ds := by
  induction z with
  | zero => rfl
  | succ z ih =>
    rw [List.replicate_succ, List.cons_append, main_knums, main_knum_idle_zero,
      Option.some_bind]
    exact ih

/-- Digits typed while a count `v < 10^m` is pending extend it in decimal, as
    long as no more than 9 digits are typed in all. -/
theorem main_knums_pending : ∀ (ds : List Nat) (v : Int) (m : Nat), 1 ≤ v →
    v < (10 : Int) ^ m → m + ds.length ≤ 9 → (∀ d ∈ ds, d ≤ 9) →
    main_knums ⟨v, true⟩ ds = some ⟨decimal_from v ds, true⟩ := by
  intro ds
  induction ds with
  | nil => intro v m _ _ _ _; rfl
  | cons d ds ih =>
    intro v m hv hm hlen hd
    have hd9 : d ≤ 9 := hd d (List.mem_cons_self _ _)
    have hm8 : m ≤ 8 := by simp only [List.length_cons] at hlen; omega
    have hpow : (10 : Int) ^ m ≤ 10 ^ 8 := pow_le_pow_right₀ (by norm_num) hm8
    have h8 : (10 : Int) ^ 8 = 100000000 := by norm_num
    have hsmall : v < (INT_MAX - (d : Int)) / 10 := by unfold INT_MAX; omega
    obtain ⟨hk, h1, -⟩ := (main_knum_pending v d hv hd9).2.1 hsmall
    rw [main_knums, hk, Option.some_bind]
    have hnext : 10 * v + (d : Int) < (10 : Int) ^ (m + 1) := by
      rw [pow_succ]; omega
    exact ih (10 * v + (d : Int)) (m + 1) h1 hnext
      (by simp only [List.length_cons] at hlen; omega)
      (fun x hx => hd x (List.mem_cons_of_mem _ hx))

theorem decimal_from_bound : ∀ (ds : List Nat) (v : Int) (m : Nat), 0 ≤ v →
    v < (10 : Int) ^ m → (∀ d ∈ ds, d ≤ 9) →
    0 ≤ decimal_from v ds ∧ decimal_from v ds < (10 : Int) ^ (m + ds.length) := by
  intro ds
  induction ds with
  | nil => intro v m h0 hm _; exact ⟨h0, hm⟩
  | cons d ds ih =>
    intro v m h0 hm hd
    have hd9 : d ≤ 9 := hd d (List.mem_cons_self _ _)
    have hnext : 10 * v + (d : Int) < (10 : Int) ^ (m + 1) := by
      rw [pow_succ]; omega
    have := ih (10 * v + (d : Int)) (m + 1) (by omega) hnext
      (fun x hx => hd x (List.mem_cons_of_mem _ hx))
    simp only [decimal_from, List.length_cons]
    rw [show m + (ds.length + 1) = m + 1 + ds.length by omega]
    exact this

/-- Below `INT_MAX` steps `board_shiftcursor` returns, with the cursor at the
    clamped position. -/
theorem board_shiftcursor_some (bd : Board) (dir : Direction) (n : Int)
    (hc : Inb bd bd.curx bd.cury) (hn0 : 0 ≤ n) (hn1 : n < INT_MAX) :
    board_shiftcursor bd dir n = some (shifted bd dir n) := by
  unfold board_shiftcursor
  have h := shift_loop_clamp dir n hn1 n.toNat 0 bd hc (by omega)
  rw [h, Int.toNat_of_nonneg hn0]

theorem skip_unknown_length : ∀ (s : List Nat) (c : Nat) (s4 : List Nat),
    skip_unknown s c = some s4 → s4.length ≤ s.length := by
  intro s
  induction s with
  | nil =>
    intro c s4 h
    unfold skip_unknown at h
    split at h
    · exact absurd h (by simp)
    · simp only [Option.some.injEq] at h
      subst h
      exact Nat.le_refl _
  | cons c1 s1 ih =>
    intro c s4 h
    unfold skip_unknown at h
    split at h
    · have := ih c1 s4 h
      simp only [List.length_cons]
      omega
    · simp only [Option.some.injEq] at h
      subst h
      exact Nat.le_refl _

/-- The result of `getkey` does not depend on the bound, once the bound
    exceeds the number of bytes. -/
theorem getkey_aux_stable : ∀ (f1 : Nat) (s : List Nat), s.length < f1 →
    ∀ f2, s.length < f2 → getkey_aux f1 s = getkey_aux f2 s := by
  intro f1
  induction f1 with
  | zero => intro s h; exact absurd h (Nat.not_lt_zero _)
  | succ f1 ih =>
    intro s h1 f2 h2
    cases f2 with
    | zero => exact absurd h2 (Nat.not_lt_zero _)
    | succ f2 =>
      match s with
      | [] => rfl
      | [_] => rfl
      | [_, _] => rfl
      | c :: c2 :: c3 :: s3 =>
        unfold getkey_aux
        simp only
        split
        · rfl
        · split
          · rfl
          · split
            · rfl
            · split
              · rfl
              · split
                · rfl
                · split
                  · rfl
                  · split
                    · rfl
                    · cases hs : skip_unknown s3 c3 with
                      | none => rfl
                      | some s4 =>
                        have hl := skip_unknown_length s3 c3 s4 hs
                        simp only [List.length_cons] at h1 h2
                        simp only [Option.some_bind]
                        exact ih s4 (by omega) f2 (by omega)

/-- The skip loop drops the bytes outside 64..126 and the first byte inside. -/
theorem skip_unknown_split (f : Nat) (tail : List Nat) (hf : 64 ≤ f ∧ f ≤ 126) :
    ∀ (ps : List Nat) (p : Nat), (p < 64 ∨ p > 126) → (∀ b ∈ ps, b < 64 ∨ b > 126) →
      skip_unknown (ps ++ f :: tail) p = some tail := by
  intro ps
  induction ps with
  | nil =>
    intro p hp _
    have hnf : ¬ (f < 64 ∨ f > 126) := by omega
    cases tail with
    | nil => simp [skip_unknown, hp, hnf]
    | cons t ts => simp [skip_unknown, hp, hnf]
  | cons q ps ih =>
    intro p hp hps
    rw [List.cons_append, skip_unknown, if_pos hp]
    exact ih q (hps q (List.mem_cons_self _ _)) (fun b hb => hps b (List.mem_cons_of_mem _ hb))

theorem countP_closed_open : ∀ (l : List Data),
    l.countP (fun d => !d.open_) + l.countP (fun d => d.open_) = l.length := by
  intro l
  induction l with
  | nil => rfl
  | cons a l ih =>
    rw [List.countP_cons, List.countP_cons, List.length_cons]
    cases ha : a.open_ <;> simp <;> omega

theorem closed_add_open (bd : Board) : closedCount bd + openCount bd = bd.data.length :=
  countP_closed_open bd.data

theorem setCell_setCell (bd : Board) (i : Int) (a b : Data) :
    (bd.setCell i a).setCell i b = bd.setCell i b := by
  unfold Board.setCell
  by_cases hi : 0 ≤ i
  · simp only [hi, if_true, List.set_set]
  · simp only [hi, if_false]

/-- Opening a cell gives the same board whether the cell was open or closed
    before. -/
theorem flood_open_reclose (bd : Board) (i : Int) (h0 : 0 ≤ i) (h1 : i < bd.data.length) :
    flood_open (bd.setCell i ⟨false, (bd.cell i).bomb, (bd.cell i).flag, (bd.cell i).count⟩)
      i = flood_open bd i := by
  have hfr := setCell_frame bd i ⟨false, (bd.cell i).bomb, (bd.cell i).flag, (bd.cell i).count⟩
  have hcell := cell_setCell_same bd i
    ⟨false, (bd.cell i).bomb, (bd.cell i).flag, (bd.cell i).count⟩ h0 h1
  unfold flood_open
  rw [hcell, setCell_setCell, hfr.2.2.2.2.2.2.2.1]

/-- A call of `board_flood` on a seed does the same whether the seed was open
    or closed before. -/
theorem board_flood_aux_reclose (fuel : Nat) (bd : Board) (x y : Int)
    (h0 : 0 ≤ bd.w * y + x) (h1 : bd.w * y + x < bd.data.length) :
    board_flood_aux fuel
      (bd.setCell (bd.w * y + x) ⟨false, (bd.cell (bd.w * y + x)).bomb,
        (bd.cell (bd.w * y + x)).flag, (bd.cell (bd.w * y + x)).count⟩) x y =
      board_flood_aux fuel bd x y := by
  cases fuel with
  | zero => rfl
  | succ fuel =>
    have hfr := setCell_frame bd (bd.w * y + x) ⟨false, (bd.cell (bd.w * y + x)).bomb,
      (bd.cell (bd.w * y + x)).flag, (bd.cell (bd.w * y + x)).count⟩
    rw [board_flood_aux, board_flood_aux]
    simp only [hfr.1]
    rw [flood_open_reclose bd _ h0 h1]

theorem flood_visit_more (rec1 rec2 : Board → Option Board) (g : Bool) (i : Int) (b b' : Board)
    (hrec : ∀ c c', rec1 c = some c' → rec2 c = some c')
    (h : flood_visit rec1 g i b = some b') : flood_visit rec2 g i b = some b' := by
  unfold flood_visit at h ⊢
  split
  · rename_i hg
    rw [if_pos hg] at h
    split
    · rename_i ho
      rw [if_pos ho] at h
      exact h
    · rename_i ho
      rw [if_neg ho] at h
      exact hrec _ _ h
  · rename_i hg
    rw [if_neg hg] at h
    exact h

/-- A larger recursion bound does not change a result of `board_flood`. -/
theorem board_flood_aux_succ : ∀ (fuel : Nat) (bd : Board) (x y : Int) (bd' : Board),
    board_flood_aux fuel bd x y = some bd' → board_flood_aux (fuel + 1) bd x y = some bd' := by
  intro fuel
  induction fuel with
  | zero => intro bd x y bd' h; simp [board_flood_aux] at h
  | succ fuel ih =>
    intro bd x y bd' h
    rw [board_flood_aux] at h ⊢
    split
    · rename_i hz
      rw [if_pos hz] at h
      exact h
    · rename_i hz
      rw [if_neg hz] at h
      obtain ⟨bd1, hv1, h⟩ := Option.bind_eq_some.mp h
      obtain ⟨bd2, hv2, h⟩ := Option.bind_eq_some.mp h
      obtain ⟨bd3, hv3, hv4⟩ := Option.bind_eq_some.mp h
      rw [flood_visit_more _ _ _ _ _ _ (fun c c' => ih c _ _ c') hv1, Option.some_bind,
        flood_visit_more _ _ _ _ _ _ (fun c c' => ih c _ _ c') hv2, Option.some_bind,
        flood_visit_more _ _ _ _ _ _ (fun c c' => ih c _ _ c') hv3, Option.some_bind,
        flood_visit_more _ _ _ _ _ _ (fun c c' => ih c _ _ c') hv4]

theorem board_flood_aux_le (f1 f2 : Nat) (hle : f1 ≤ f2) (bd : Board) (x y : Int)
    (bd' : Board) (h : board_flood_aux f1 bd x y = some bd') :
    board_flood_aux f2 bd x y = some bd' := by
  induction f2 with
  | zero =>
    have : f1 = 0 := by omega
    subst this
    exact h
  | succ f2 ih =>
    by_cases he : f1 = f2 + 1
    · subst he; exact h
    · exact board_flood_aux_succ f2 bd x y bd' (ih (by omega))

/-- A call of `board_flood` on any on-board seed returns, and is correct as a
    call on the board in which the seed is closed. -/
theorem board_flood_any_seed (bd : Board) (x y : Int) (hw : WF bd) (hb : Inb bd x y) :
    ∃ bd', board_flood bd x y = some bd' ∧
      FloodOK (bd.setCell (bd.w * y + x) ⟨false, (bd.cell (bd.w * y + x)).bomb,
        (bd.cell (bd.w * y + x)).flag, (bd.cell (bd.w * y + x)).count⟩) x y bd' := by
  have hr := idx_range hw hb
  have hfr := setCell_frame bd (bd.w * y + x) ⟨false, (bd.cell (bd.w * y + x)).bomb,
    (bd.cell (bd.w * y + x)).flag, (bd.cell (bd.w * y + x)).count⟩
  have hcell := cell_setCell_same bd (bd.w * y + x) ⟨false, (bd.cell (bd.w * y + x)).bomb,
    (bd.cell (bd.w * y + x)).flag, (bd.cell (bd.w * y + x)).count⟩ hr.1 hr.2
  generalize hbc : bd.setCell (bd.w * y + x) ⟨false, (bd.cell (bd.w * y + x)).bomb,
    (bd.cell (bd.w * y + x)).flag, (bd.cell (bd.w * y + x)).count⟩ = bc at hfr hcell
  have hwc : WF bc := hfr.frame_wf hw
  have hbc' : Inb bc x y := by unfold Inb at hb ⊢; rw [hfr.1, hfr.2.1]; exact hb
  have hcl : (bc.cell (bc.w * y + x)).open_ = false := by rw [hfr.1, hcell]
  obtain ⟨bd', hf⟩ := board_flood_total bc x y hwc hbc' hcl
  have F := flood_aux_ok _ bc x y bd' hwc hbc' hcl hf
  refine ⟨bd', ?_, F⟩
  unfold board_flood at hf ⊢
  rw [hfr.2.2.1, ← hbc, board_flood_aux_reclose _ bd x y hr.1 hr.2] at hf
  exact hf

/-- The fields that `formatTime` prints: below one hour the minutes and the
    seconds, which decode to the input; from one hour on the hours, the
    minutes counted from the start (not reduced below 60) and the seconds. -/
theorem formatTime_fields (s : Int) (h0 : 0 ≤ s) :
    (s < 3600 → formatTime s = [s / 60, s % 60] ∧ s / 60 < 60 ∧ s % 60 < 60 ∧
      s / 60 * 60 + s % 60 = s) ∧
    (3600 ≤ s → formatTime s = [s / 60 / 60, s / 60, s % 60] ∧ 60 ≤ s / 60) := by
  constructor
  · intro h1
    have hh : ¬ s / 60 / 60 > 0 := by omega
    refine ⟨?_, by omega, by omega, by omega⟩
    simp only [formatTime, hh, if_false]
  · intro h1
    have hh : s / 60 / 60 > 0 := by omega
    refine ⟨?_, by omega⟩
    simp only [formatTime, hh, if_true]

/-! ## The claims -/

/-- Claim C1: on a fresh board, for every on-board excluded cell `(x, y)` and
    every sequence of draws on which `board_fill` completes, the cell
    `(x, y)` is not a mine afterwards (for any number of mines asked for). -/
theorem board_fill_spares_excluded (w h nbombs x y : Int) (draws : List Nat) (now : Int)
    (bd' : Board) (hx0 : 0 ≤ x) (hx1 : x < w) (hy0 : 0 ≤ y) (hy1 : y < h)
    (hf : board_fill (board_make w h nbombs) x y draws now = some bd') :
    (bd'.cell (bd'.w * y + x)).bomb = false := by
  obtain ⟨b, hl, rfl⟩ := board_fill_some hf
  have hw := board_make_wf w h nbombs (by omega) (by omega)
  have hfr := (fill_loop_keeps _ _ _ _ _ hw hl).2.1
  have := fill_loop_excludes _ _ _ _ _ hw (by rw [board_make_cell]; rfl) hl
  show (b.cell (b.w * y + x)).bomb = false
  rw [hfr.1]
  exact this

theorem board_fill_spares_excluded_witness :
    (0 : Int) ≤ 1 ∧ (1 : Int) < 3 ∧
      board_fill (board_make 3 3 2) 1 1 [4, 0, 0, 8] 7 = some demoFilled ∧
      (demoFilled.cell (demoFilled.w * 1 + 1)).bomb = false :=
  ⟨by decide, by decide, by decide,
    board_fill_spares_excluded 3 3 2 1 1 [4, 0, 0, 8] 7 demoFilled (by decide) (by decide)
      (by decide) (by decide) (by decide)⟩

/-- Claim C2: on a fresh board of any width and height of at least 1, for
    every sequence of draws on which `board_fill` completes, afterwards every
    mine has count 0 and every other on-board cell has as count the number of
    mines among its up-to-8 on-board neighbours. -/
theorem board_fill_counts (w h nbombs x y : Int) (draws : List Nat) (now : Int)
    (bd' : Board) (hw : 0 < w) (hh : 0 < h)
    (hf : board_fill (board_make w h nbombs) x y draws now = some bd') :
    ∀ cx cy, Inb bd' cx cy →
      if (bd'.cell (bd'.w * cy + cx)).bomb = true then (bd'.cell (bd'.w * cy + cx)).count = 0
      else (bd'.cell (bd'.w * cy + cx)).count = (neighbourMines bd' cx cy : Int) := by
  obtain ⟨b, hl, rfl⟩ := board_fill_some hf
  have hc := fill_loop_countsOK _ _ _ _ _ (board_make_wf w h nbombs hw hh)
    (board_make_countsOK w h nbombs) hl
  exact @CountsOK_congr b _ rfl rfl (fun _ => rfl) (fun _ => rfl) hc

theorem board_fill_counts_witness :
    (0 : Int) < 3 ∧ board_fill (board_make 3 3 2) 1 1 [4, 0, 0, 8] 7 = some demoFilled ∧
      ∀ cx cy, Inb demoFilled cx cy →
        if (demoFilled.cell (demoFilled.w * cy + cx)).bomb = true
          then (demoFilled.cell (demoFilled.w * cy + cx)).count = 0
        else (demoFilled.cell (demoFilled.w * cy + cx)).count =
          (neighbourMines demoFilled cx cy : Int) :=
  ⟨by decide, by decide,
    board_fill_counts 3 3 2 1 1 [4, 0, 0, 8] 7 demoFilled (by decide) (by decide) (by decide)⟩

/-- Claim C3: on a fresh board with `0 ≤ nbombs`, for every sequence of draws
    on which `board_fill` completes, the number of mines afterwards is
    exactly `nbombs`. -/
theorem board_fill_places_nbombs (w h nbombs x y : Int) (draws : List Nat) (now : Int)
    (bd' : Board) (hw : 0 < w) (hh : 0 < h) (hn : 0 ≤ nbombs)
    (hf : board_fill (board_make w h nbombs) x y draws now = some bd') :
    (bombCount bd' : Int) = nbombs := by
  obtain ⟨b, hl, rfl⟩ := board_fill_some hf
  have h1 := fill_loop_bombCount _ _ _ _ _ (board_make_wf w h nbombs hw hh) hl
  have h0 : bombCount (board_make w h nbombs) = 0 := ((board_make_inv w h nbombs hw hh).pre rfl).1
  show (bombCount b : Int) = nbombs
  rw [h1, h0]
  show ((0 : Nat) : Int) + max nbombs 0 = nbombs
  rw [max_eq_left hn]
  simp

theorem board_fill_places_nbombs_witness :
    (0 : Int) < 3 ∧ (0 : Int) ≤ 2 ∧
      board_fill (board_make 3 3 2) 1 1 [4, 0, 0, 8] 7 = some demoFilled ∧
      (bombCount demoFilled : Int) = 2 :=
  ⟨by decide, by decide, by decide,
    board_fill_places_nbombs 3 3 2 1 1 [4, 0, 0, 8] 7 demoFilled (by decide) (by decide)
      (by decide) (by decide)⟩

/-- Claim C4: on a well-formed board with an on-board closed seed `(x, y)`,
    `board_flood` returns, and the cells it newly opens (closed before, open
    after) are exactly the cells reached from the seed by a 4-directional
    path of initially closed on-board cells whose cells before the last all
    have count 0; every cell not reached keeps its open state. -/
theorem board_flood_region (bd : Board) (x y : Int) (hw : WF bd) (hb : Inb bd x y)
    (hc : (bd.cell (bd.w * y + x)).open_ = false) :
    ∃ bd', board_flood bd x y = some bd' ∧ ∀ cx cy, Inb bd cx cy →
      ((((bd.cell (bd.w * cy + cx)).open_ = false ∧
          (bd'.cell (bd.w * cy + cx)).open_ = true) ↔ FloodPath bd x y cx cy) ∧
        (¬ FloodPath bd x y cx cy →
          (bd'.cell (bd.w * cy + cx)).open_ = (bd.cell (bd.w * cy + cx)).open_)) := by
  obtain ⟨bd', hf⟩ := board_flood_total bd x y hw hb hc
  have F := flood_aux_ok _ bd x y bd' hw hb hc hf
  have hiff : ∀ cx cy, Inb bd cx cy →
      (((bd.cell (bd.w * cy + cx)).open_ = false ∧
        (bd'.cell (bd.w * cy + cx)).open_ = true) ↔ FloodPath bd x y cx cy) := by
    intro cx cy hcb
    constructor
    · intro hn
      exact F.sound cx cy hcb hn
    · intro p
      exact ⟨p.target.2, flood_complete F p F.seed⟩
  refine ⟨bd', hf, fun cx cy hcb => ⟨hiff cx cy hcb, fun hnp => ?_⟩⟩
  cases ha : (bd.cell (bd.w * cy + cx)).open_
  · cases hb' : (bd'.cell (bd.w * cy + cx)).open_
    · rfl
    · exact absurd ((hiff cx cy hcb).mp ⟨ha, hb'⟩) hnp
  · exact F.opens.mono _ ha

theorem board_flood_region_witness :
    ∃ bd', board_flood demoFilled 2 0 = some bd' ∧ ∀ cx cy, Inb demoFilled cx cy →
      ((((demoFilled.cell (demoFilled.w * cy + cx)).open_ = false ∧
          (bd'.cell (demoFilled.w * cy + cx)).open_ = true) ↔ FloodPath demoFilled 2 0 cx cy) ∧
        (¬ FloodPath demoFilled 2 0 cx cy →
          (bd'.cell (demoFilled.w * cy + cx)).open_ =
            (demoFilled.cell (demoFilled.w * cy + cx)).open_)) :=
  board_flood_region demoFilled 2 0 (by unfold WF; decide) (by unfold Inb; decide) (by decide)

theorem mem_data_iff {bd : Board} (hw : WF bd) (P : Data → Prop) :
    (∀ d ∈ bd.data, P d) ↔ ∀ x y, Inb bd x y → P (bd.cell (bd.w * y + x)) := by
  constructor
  · intro h x y hb
    have hr := idx_range hw hb
    have hlt : (bd.w * y + x).toNat < bd.data.length := by omega
    rw [cell_eq_getElem bd _ hr.1 hlt]
    exact h _ (List.getElem_mem _)
  · intro h d hd
    obtain ⟨n, hn, rfl⟩ := List.getElem_of_mem hd
    obtain ⟨px, py, hp, he⟩ := @pos_coords bd hw (n : Int) (by omega) (by omega)
    have := h px py hp
    rw [← he, cell_eq_getElem bd (n : Int) (by omega) (by simpa using hn)] at this
    simpa using this

/-- Claim C5: in every board reachable from a fresh board with `0 ≤ nbombs`,
    `board_win` returns true exactly when the mines have been generated
    (`startTime` is set) and every on-board cell that is not a mine is open;
    flags play no part. -/
theorem board_win_iff (w h nbombs : Int) (bd : Board) (hw : 0 < w) (hh : 0 < h)
    (hn : 0 ≤ nbombs) (hr : Reachable w h nbombs bd) :
    board_win bd = true ↔
      (bd.startTime ≠ -1 ∧ ∀ x y, Inb bd x y → (bd.cell (bd.w * y + x)).bomb = false →
        (bd.cell (bd.w * y + x)).open_ = true) := by
  have I := hr.inv hw hh
  have hsafe : ∀ d ∈ bd.data, d.open_ = true → d.bomb = false := by
    rw [mem_data_iff I.wf (fun d => d.open_ = true → d.bomb = false)]
    intro x y _
    exact I.safe _
  obtain ⟨hle, hiff⟩ := countP_cover (fun d : Data => d.open_) (fun d => d.bomb) bd.data hsafe
  have hlen := I.wf.2.2
  have hnop := I.nopen
  unfold board_win
  rw [decide_eq_true_eq]
  constructor
  · rintro ⟨hs, hno⟩
    refine ⟨hs, ?_⟩
    have hbc := I.post hs
    rw [max_eq_left hn, ← I.dims.2.2] at hbc
    have hsum : bd.data.countP (fun d => d.open_) + bd.data.countP (fun d => d.bomb) =
        bd.data.length := by
      unfold openCount at hnop
      unfold bombCount at hbc
      omega
    exact (mem_data_iff I.wf (fun d => d.bomb = false → d.open_ = true)).mp (hiff.mp hsum)
  · rintro ⟨hs, hall⟩
    refine ⟨hs, ?_⟩
    have hbc := I.post hs
    rw [max_eq_left hn, ← I.dims.2.2] at hbc
    have hsum := hiff.mpr
      ((mem_data_iff I.wf (fun d => d.bomb = false → d.open_ = true)).mpr hall)
    unfold openCount at hnop
    unfold bombCount at hbc
    omega

theorem board_win_iff_witness :
    (0 : Int) < 2 ∧ (0 : Int) < 1 ∧ (0 : Int) ≤ 1 ∧ Reachable 2 1 1 demoWon ∧
      (board_win demoWon = true ↔
        (demoWon.startTime ≠ -1 ∧ ∀ x y, Inb demoWon x y →
          (demoWon.cell (demoWon.w * y + x)).bomb = false →
          (demoWon.cell (demoWon.w * y + x)).open_ = true)) :=
  ⟨by decide, by decide, by decide,
    Reachable.opened _ [1] 5 false demoWon Reachable.fresh (by decide) (by decide),
    board_win_iff 2 1 1 demoWon (by decide) (by decide) (by decide)
      (Reachable.opened _ [1] 5 false demoWon Reachable.fresh (by decide) (by decide))⟩

/-- Claim C6 fails on the code: flag `(0, 0)` on a fresh 3x3 board with one
    mine, move one step right and open `(1, 0)`.  The flood opens the flagged
    cell and clears its flag without touching `nflags`: the board reached has
    `nflags = 1` and no flagged cell. -/
theorem nflags_stale_after_flood :
    (board_shiftcursor (board_flag (board_make 3 3 1)) Direction.RIGHT 1).bind
        (fun b => board_open b [8] 5) = some (false, demoStale) ∧
      Reachable 3 3 1 demoStale ∧ demoStale.nflags = 1 ∧ flagCount demoStale = 0 :=
  ⟨by decide,
    Reachable.opened _ [8] 5 false demoStale
      (Reachable.shift _ Direction.RIGHT 1 _ (Reachable.flag _ Reachable.fresh) rfl)
      (by decide) (by decide),
    by decide, by decide⟩

/-- Claim C7: in every board reachable from a fresh board, `nopen` is the
    number of open cells. -/
theorem reachable_nopen (w h nbombs : Int) (bd : Board) (hw : 0 < w) (hh : 0 < h)
    (hr : Reachable w h nbombs bd) : bd.nopen = (openCount bd : Int) :=
  (hr.inv hw hh).nopen

theorem reachable_nopen_witness :
    (0 : Int) < 3 ∧ Reachable 3 3 1 demoStale ∧ demoStale.nopen = (openCount demoStale : Int) :=
  ⟨by decide,
    Reachable.opened _ [8] 5 false demoStale
      (Reachable.shift _ Direction.RIGHT 1 _ (Reachable.flag _ Reachable.fresh) rfl)
      (by decide) (by decide),
    reachable_nopen 3 3 1 demoStale (by decide) (by decide)
      (Reachable.opened _ [8] 5 false demoStale
        (Reachable.shift _ Direction.RIGHT 1 _ (Reachable.flag _ Reachable.fresh) rfl)
        (by decide) (by decide))⟩

/-- The `while` loop of `board_fill` completes on the draws `s, s+1, ...,
    w*h - 1` when no cell from `s` on is a mine and enough of these cells
    are left to take the `n` mines. -/
theorem fill_loop_completes (ch : Int) : ∀ (k s : Nat) (n : Int) (bd : Board), WF bd →
    ((s + k : Nat) : Int) = bd.w * bd.h → (∀ j : Int, (s : Int) ≤ j → (bd.cell j).bomb = false) →
    n ≤ (k : Int) - (if (s : Int) ≤ ch then 1 else 0) →
    ∃ bd', fill_loop ch (List.range' s k) n bd = some bd' := by
  intro k
  induction k with
  | zero =>
    intro s n bd _ _ _ hn
    have hn' : ¬ n > 0 := by split at hn <;> omega
    exact ⟨bd, by simp [fill_loop, hn']⟩
  | succ k ih =>
    intro s n bd hw hN hclean hn
    rw [List.range'_succ]
    unfold fill_loop
    by_cases hpos : n > 0
    · have hmod : ((s : Nat) : Int) % (bd.w * bd.h) = s := by
        apply Int.emod_eq_of_lt (by omega)
        rw [← hN]; push_cast; omega
      simp only [hpos, if_true, hmod]
      have hbs : (bd.cell (s : Int)).bomb = false := hclean _ (Int.le_refl _)
      by_cases hch : (s : Int) = ch
      · simp only [hch, true_or, if_true]
        apply ih (s + 1) n bd hw (by rw [← hN]; push_cast; omega)
          (fun j hj => hclean j (by push_cast at hj; omega))
        rw [if_pos (by omega)] at hn
        rw [if_neg (by push_cast; omega)]
        push_cast at hn
        omega
      · simp only [hch, hbs, Bool.false_eq_true, or_self, if_false]
        have hr : (0 : Int) ≤ s ∧ (s : Int) < bd.data.length := by
          refine ⟨by omega, ?_⟩
          rw [hw.2.2, ← hN]; push_cast; omega
        have hfr := fill_place_frame bd (s : Int)
        apply ih (s + 1) (n - 1) _ (hfr.frame_wf hw)
        · rw [hfr.1, hfr.2.1, ← hN]; push_cast; omega
        · intro j hj
          obtain ⟨-, -, c3, -⟩ := fill_place_cell bd (s : Int) j hr.1 hr.2
          rw [c3, hclean j (by push_cast at hj; omega)]
          have : ¬ j = (s : Int) := by push_cast at hj; omega
          simp [this]
        · push_cast at hn ⊢
          split at hn <;> split <;> omega
    · exact ⟨bd, by simp [hpos]⟩

/-- On a fresh board with fewer mines asked for than cells, `board_fill`
    completes when the draws run through all cells once. -/
theorem board_fill_can_complete (w h nbombs x y now : Int) (hx0 : 0 ≤ x) (hx1 : x < w)
    (hy0 : 0 ≤ y) (hy1 : y < h) (hn : nbombs < w * h) (cx cy : Int) :
    ∃ bd', board_fill { board_make w h nbombs with curx := cx, cury := cy } x y
      (List.range (w * h).toNat) now = some bd' := by
  have hw : WF (board_make w h nbombs) := board_make_wf w h nbombs (by omega) (by omega)
  have hw' : WF { board_make w h nbombs with curx := cx, cury := cy } := hw
  have hr := idx_range hw ⟨hx0, hx1, hy0, hy1⟩
  have hpos : 0 < w * h := Int.mul_pos (by omega) (by omega)
  obtain ⟨b, hb⟩ := fill_loop_completes (w * y + x) (w * h).toNat 0 nbombs
    { board_make w h nbombs with curx := cx, cury := cy } hw'
    (by show (((0 + (w * h).toNat : Nat)) : Int) = w * h; omega)
    (fun j _ => by
      show ((board_make w h nbombs).cell j).bomb = false
      rw [board_make_cell]; rfl)
    (by
      have : (0 : Int) ≤ w * y + x := hr.1
      rw [if_pos (by simpa using this)]
      omega)
  refine ⟨{ b with startTime := now }, ?_⟩
  unfold board_fill
  rw [List.range_eq_range']
  show Option.map _ (fill_loop (w * y + x) _ nbombs _) = _
  rw [hb]
  rfl

/-- Claim C8 as stated fails on a fresh board: `board_open` on the fresh 2x1
    board whose cursor cell is flagged returns false but has generated the
    mines first, so the board is not unchanged (a mine lies on `(1, 0)`, the
    count of `(0, 0)` is 1 and `startTime` is set). -/
theorem flagged_fresh_open_changes :
    (demoFlagged.cell (demoFlagged.w * demoFlagged.cury + demoFlagged.curx)).flag = true ∧
      demoFlagged = board_flag (board_make 2 1 1) ∧
      board_open demoFlagged [1] 7 = some (false, demoFlaggedFilled) ∧
      demoFlaggedFilled ≠ demoFlagged ∧ demoFlagged.startTime = -1 ∧
      demoFlaggedFilled.startTime = 7 ∧ (demoFlagged.cell 1).bomb = false ∧
      (demoFlaggedFilled.cell 1).bomb = true := by
  decide

/-- Claim C8, amended: if the cursor cell is flagged, then on a board on
    which the mines have been generated `board_open` returns false and leaves
    the whole board unchanged; on a well-formed board on which they have not,
    `board_open` returns false with exactly the board that `board_fill`
    produces (none if `board_fill` does not complete), in which the cursor,
    `nflags`, `nopen` and the open mark and flag of every cell are
    unchanged. -/
theorem board_open_flagged (bd : Board) (draws : List Nat) (now : Int)
    (hflag : (bd.cell (bd.w * bd.cury + bd.curx)).flag = true) :
    (bd.startTime ≠ -1 → board_open bd draws now = some (false, bd)) ∧
    (bd.startTime = -1 → WF bd →
      board_open bd draws now =
        (board_fill bd bd.curx bd.cury draws now).map (fun b => (false, b)) ∧
      ∀ bd1, board_fill bd bd.curx bd.cury draws now = some bd1 →
        bd1.curx = bd.curx ∧ bd1.cury = bd.cury ∧ bd1.nflags = bd.nflags ∧
        bd1.nopen = bd.nopen ∧
        ∀ j, (bd1.cell j).open_ = (bd.cell j).open_ ∧ (bd1.cell j).flag = (bd.cell j).flag) := by
  constructor
  · intro hs
    unfold board_open
    simp only [hs, if_false, Option.some_bind, hflag, Bool.true_or, if_true]
  · intro hs hw
    have hkeep : ∀ bd1, board_fill bd bd.curx bd.cury draws now = some bd1 →
        bd1.curx = bd.curx ∧ bd1.cury = bd.cury ∧ bd1.nflags = bd.nflags ∧
        bd1.nopen = bd.nopen ∧
        ∀ j, (bd1.cell j).open_ = (bd.cell j).open_ ∧
          (bd1.cell j).flag = (bd.cell j).flag := by
      intro bd1 hf
      obtain ⟨b, hl, rfl⟩ := board_fill_some hf
      obtain ⟨-, hfr, hcells⟩ := fill_loop_keeps _ _ _ _ _ hw hl
      exact ⟨hfr.2.2.2.1, hfr.2.2.2.2.1, hfr.2.2.2.2.2.2.1, hfr.2.2.2.2.2.2.2.1,
        fun j => ⟨(hcells j).1, (hcells j).2.1⟩⟩
    refine ⟨?_, hkeep⟩
    unfold board_open
    simp only [hs, if_true]
    cases hf : board_fill bd bd.curx bd.cury draws now with
    | none => rfl
    | some bd1 =>
      have hfl : (bd1.cell (bd.w * bd.cury + bd.curx)).flag = true := by
        rw [((hkeep bd1 hf).2.2.2.2 _).2]; exact hflag
      simp only [Option.some_bind, hfl, Bool.true_or, if_true, Option.map_some']

theorem board_open_flagged_witness :
    (demoFlagged.cell (demoFlagged.w * demoFlagged.cury + demoFlagged.curx)).flag = true ∧
    ((demoFlagged.startTime ≠ -1 → board_open demoFlagged [1] 7 = some (false, demoFlagged)) ∧
    (demoFlagged.startTime = -1 → WF demoFlagged →
      board_open demoFlagged [1] 7 =
        (board_fill demoFlagged demoFlagged.curx demoFlagged.cury [1] 7).map
          (fun b => (false, b)) ∧
      ∀ bd1, board_fill demoFlagged demoFlagged.curx demoFlagged.cury [1] 7 = some bd1 →
        bd1.curx = demoFlagged.curx ∧ bd1.cury = demoFlagged.cury ∧
        bd1.nflags = demoFlagged.nflags ∧ bd1.nopen = demoFlagged.nopen ∧
        ∀ j, (bd1.cell j).open_ = (demoFlagged.cell j).open_ ∧
          (bd1.cell j).flag = (demoFlagged.cell j).flag)) :=
  ⟨by decide, board_open_flagged demoFlagged [1] 7 (by decide)⟩

theorem board_open_flood_eq {bd : Board} {draws : List Nat} {now : Int} {bd1 bd' : Board}
    (h1 : (if bd.startTime = -1 then board_fill bd bd.curx bd.cury draws now else some bd) =
      some bd1)
    (hfl : (bd1.cell (bd.w * bd.cury + bd.curx)).flag = false)
    (hop : (bd1.cell (bd.w * bd.cury + bd.curx)).open_ = false)
    (hbm : (bd1.cell (bd.w * bd.cury + bd.curx)).bomb = false)
    (hfd : board_flood bd1 bd1.curx bd1.cury = some bd') :
    board_open bd draws now = some (false, bd') := by
  unfold board_open
  simp only
  rw [h1]
  simp only [Option.some_bind, hfl, hop, hbm, Bool.or_self, Bool.false_eq_true, if_false, hfd,
    Option.map_some']

/-- Claim C9: on a fresh board with the cursor on any on-board cell, a first
    `board_open` whose `board_fill` completes (at a valid clock reading)
    returns false, and afterwards `startTime` is set, the cursor cell is open
    and not a mine, and `nopen ≥ 1`. -/
theorem first_open_safe (w h nbombs cx cy : Int) (draws : List Nat) (now : Int) (bd1 : Board)
    (hx0 : 0 ≤ cx) (hx1 : cx < w) (hy0 : 0 ≤ cy) (hy1 : cy < h) (hnow : now ≠ -1)
    (hf : board_fill { board_make w h nbombs with curx := cx, cury := cy } cx cy draws now =
      some bd1) :
    ∃ bd', board_open { board_make w h nbombs with curx := cx, cury := cy } draws now =
        some (false, bd') ∧
      bd'.startTime ≠ -1 ∧ (bd'.cell (bd'.w * bd'.cury + bd'.curx)).open_ = true ∧
      (bd'.cell (bd'.w * bd'.cury + bd'.curx)).bomb = false ∧ 1 ≤ bd'.nopen := by
  have I0 : Inv w h nbombs { board_make w h nbombs with curx := cx, cury := cy } :=
    (board_make_inv w h nbombs (by omega) (by omega)).of_field
      ⟨rfl, rfl, rfl, rfl, rfl, rfl, fun _ => ⟨rfl, rfl, rfl⟩⟩ ⟨hx0, hx1, hy0, hy1⟩
  obtain ⟨I1, st, hex, ecx, ecy, ew, -, hcells⟩ := I0.fill rfl hnow hf
  have hs1 : bd1.startTime ≠ -1 := by rw [st]; exact hnow
  have ecx' : bd1.curx = cx := ecx
  have ecy' : bd1.cury = cy := ecy
  have ew' : bd1.w = w := ew
  have hex' : (bd1.cell (w * cy + cx)).bomb = false := hex
  have hcl : (bd1.cell (bd1.w * bd1.cury + bd1.curx)).open_ = false := (hcells _).1
  have hnm : (bd1.cell (bd1.w * bd1.cury + bd1.curx)).bomb = false := by
    rw [ew', ecx', ecy']; exact hex'
  have hfl : (bd1.cell (w * cy + cx)).flag = false := by
    rw [(hcells _).2]
    show ((board_make w h nbombs).cell _).flag = false
    rw [board_make_cell]; rfl
  obtain ⟨bd', hfd⟩ := board_flood_total bd1 bd1.curx bd1.cury I1.wf I1.cur hcl
  have I2 := I1.flood hs1 I1.cur hcl hnm hfd
  have F := flood_aux_ok _ bd1 _ _ bd' I1.wf I1.cur hcl hfd
  have O := F.opens
  have hseed : (bd'.cell (bd'.w * bd'.cury + bd'.curx)).open_ = true := by
    rw [O.w, O.curx, O.cury]; exact F.seed
  refine ⟨bd', ?_, ?_, hseed, ?_, ?_⟩
  · exact board_open_flood_eq ((if_pos rfl).trans hf) hfl (hcells _).1 hex' hfd
  · rw [O.startTime]; exact hs1
  · rw [O.bomb, O.w, O.curx, O.cury]; exact hnm
  · have := I2.nopen
    have := openCount_pos hseed
    omega

theorem first_open_safe_witness :
    (0 : Int) ≤ 4 ∧ (4 : Int) < 9 ∧ (100 : Int) ≠ -1 ∧
    ∃ bd', board_open { board_make 9 9 10 with curx := 4, cury := 4 } demoDraws 100 =
        some (false, bd') ∧
      bd'.startTime ≠ -1 ∧ (bd'.cell (bd'.w * bd'.cury + bd'.curx)).open_ = true ∧
      (bd'.cell (bd'.w * bd'.cury + bd'.curx)).bomb = false ∧ 1 ≤ bd'.nopen :=
  ⟨by decide, by decide, by decide,
    first_open_safe 9 9 10 4 4 demoDraws 100
      ((board_fill { board_make 9 9 10 with curx := 4, cury := 4 } 4 4 demoDraws 100).get
        (by decide))
      (by decide) (by decide) (by decide) (by decide) (by decide)
      (Option.some_get _).symm⟩

/-- Claim C10: on a board on which the mines have been generated, if the
    cursor cell is a closed, unflagged mine then `board_open` returns true and
    the board is unchanged (every cell, every counter, the cursor, the
    mines). -/
theorem board_open_mine (bd : Board) (draws : List Nat) (now : Int) (hs : bd.startTime ≠ -1)
    (hfl : (bd.cell (bd.w * bd.cury + bd.curx)).flag = false)
    (hop : (bd.cell (bd.w * bd.cury + bd.curx)).open_ = false)
    (hbm : (bd.cell (bd.w * bd.cury + bd.curx)).bomb = true) :
    board_open bd draws now = some (true, bd) := by
  unfold board_open
  simp only [hs, if_false, Option.some_bind, hfl, hop, hbm, Bool.or_self, Bool.false_eq_true,
    if_true]

theorem board_open_mine_witness :
    demoFilled.startTime ≠ -1 ∧
      (demoFilled.cell (demoFilled.w * demoFilled.cury + demoFilled.curx)).flag = false ∧
      (demoFilled.cell (demoFilled.w * demoFilled.cury + demoFilled.curx)).open_ = false ∧
      (demoFilled.cell (demoFilled.w * demoFilled.cury + demoFilled.curx)).bomb = true ∧
      board_open demoFilled [] 9 = some (true, demoFilled) :=
  ⟨by decide, by decide, by decide, by decide,
    board_open_mine demoFilled [] 9 (by decide) (by decide) (by decide) (by decide)⟩

/-- Claim C11: on a well-formed board with generated mines whose cursor cell
    is on the board, closed and unflagged, `board_flag` sets the flag and
    raises `nflags` by 1; a following `board_open` is blocked (returns false,
    board unchanged) and the cell stays closed; a second `board_flag` gives
    back exactly the original board, so that flag, unflag, open is the same
    as open alone.  On any board whose cursor cell is open `board_flag`
    changes nothing. -/
theorem board_flag_toggle (bd : Board) (draws : List Nat) (now : Int) (b2 : Board)
    (hw : WF bd) (hc : Inb bd bd.curx bd.cury) (hs : bd.startTime ≠ -1)
    (hop : (bd.cell (bd.w * bd.cury + bd.curx)).open_ = false)
    (hfl : (bd.cell (bd.w * bd.cury + bd.curx)).flag = false)
    (ho2 : (b2.cell (b2.w * b2.cury + b2.curx)).open_ = true) :
    ((board_flag bd).cell (bd.w * bd.cury + bd.curx)).flag = true ∧
    (board_flag bd).nflags = bd.nflags + 1 ∧
    board_open (board_flag bd) draws now = some (false, board_flag bd) ∧
    ((board_flag bd).cell (bd.w * bd.cury + bd.curx)).open_ = false ∧
    board_flag (board_flag bd) = bd ∧
    board_open (board_flag (board_flag bd)) draws now = board_open bd draws now ∧
    board_flag b2 = b2 := by
  have hr := idx_range hw hc
  obtain ⟨a1, -, a3, a4, -, -, a7, a8, a9⟩ := board_flag_closed bd hop
  rw [setCell_data _ _ _ hr.1] at a9
  simp only [hfl, Bool.not_false, if_true] at a8 a9
  have hc1 : (board_flag bd).cell (bd.w * bd.cury + bd.curx) =
      ⟨(bd.cell (bd.w * bd.cury + bd.curx)).open_, (bd.cell (bd.w * bd.cury + bd.curx)).bomb,
        true, (bd.cell (bd.w * bd.cury + bd.curx)).count⟩ := by
    have h := cell_setCell_same bd (bd.w * bd.cury + bd.curx)
      ⟨(bd.cell (bd.w * bd.cury + bd.curx)).open_, (bd.cell (bd.w * bd.cury + bd.curx)).bomb,
        true, (bd.cell (bd.w * bd.cury + bd.curx)).count⟩ hr.1 hr.2
    rw [← h]
    apply cell_congr_data
    rw [a9, setCell_data _ _ _ hr.1]
  have htw := board_flag_twice bd hw hc hop hfl
  refine ⟨by rw [hc1], by rw [a8]; omega, ?_, by rw [hc1]; exact hop, htw, by rw [htw], ?_⟩
  · unfold board_open
    simp only [a7, hs, if_false, Option.some_bind, a1, a3, a4, hc1, Bool.true_or, if_true]
  · unfold board_flag
    simp only [ho2, if_true]

theorem board_flag_toggle_witness :
    WF demoFilled ∧ Inb demoFilled demoFilled.curx demoFilled.cury ∧
    demoFilled.startTime ≠ -1 ∧
    (demoStale.cell (demoStale.w * demoStale.cury + demoStale.curx)).open_ = true ∧
    (((board_flag demoFilled).cell (demoFilled.w * demoFilled.cury + demoFilled.curx)).flag =
        true ∧
      (board_flag demoFilled).nflags = demoFilled.nflags + 1 ∧
      board_open (board_flag demoFilled) [] 9 = some (false, board_flag demoFilled) ∧
      ((board_flag demoFilled).cell (demoFilled.w * demoFilled.cury + demoFilled.curx)).open_ =
        false ∧
      board_flag (board_flag demoFilled) = demoFilled ∧
      board_open (board_flag (board_flag demoFilled)) [] 9 = board_open demoFilled [] 9 ∧
      board_flag demoStale = demoStale) :=
  ⟨by unfold WF; decide, by unfold Inb; decide, by decide, by decide,
    board_flag_toggle demoFilled [] 9 demoStale (by unfold WF; decide) (by unfold Inb; decide)
      (by decide) (by decide) (by decide) (by decide)⟩

/-- Claim C12 as stated fails at the step count `INT_MAX`: with the cursor of
    a fresh 3x3 board on the upper edge, the first step sets `i = ntimes` and
    the `i++` that follows overflows, so the call has no defined result. -/
theorem shiftcursor_int_max_undefined :
    Inb (board_make 3 3 1) (board_make 3 3 1).curx (board_make 3 3 1).cury ∧
      (0 : Int) ≤ INT_MAX ∧
      board_shiftcursor (board_make 3 3 1) Direction.UP INT_MAX = none ∧
      board_shiftcursor (board_make 3 3 1) Direction.UP INT_MAX ≠
        some (shifted (board_make 3 3 1) Direction.UP INT_MAX) :=
  ⟨by unfold Inb; decide, by decide, by decide, by decide⟩

/-- Claim C12, amended: for every board with the cursor on the board, every
    direction and every step count `0 ≤ n < INT_MAX`, `board_shiftcursor`
    returns the board with the cursor at the clamped position (RIGHT:
    `min (curx + n) (w - 1)`, LEFT: `max (curx - n) 0`, DOWN:
    `min (cury + n) (h - 1)`, UP: `max (cury - n) 0`) and everything else
    unchanged; the cursor stays on the board. -/
theorem board_shiftcursor_clamps (bd : Board) (dir : Direction) (n : Int)
    (hc : Inb bd bd.curx bd.cury) (hn0 : 0 ≤ n) (hn1 : n < INT_MAX) :
    board_shiftcursor bd dir n = some (shifted bd dir n) ∧
    shifted bd Direction.RIGHT n = { bd with curx := min (bd.curx + n) (bd.w - 1) } ∧
    shifted bd Direction.LEFT n = { bd with curx := max (bd.curx - n) 0 } ∧
    shifted bd Direction.DOWN n = { bd with cury := min (bd.cury + n) (bd.h - 1) } ∧
    shifted bd Direction.UP n = { bd with cury := max (bd.cury - n) 0 } ∧
    Inb (shifted bd dir n) (shifted bd dir n).curx (shifted bd dir n).cury := by
  refine ⟨?_, rfl, rfl, rfl, rfl, ?_⟩
  · exact board_shiftcursor_some bd dir n hc hn0 hn1
  · unfold Inb at hc ⊢
    cases dir <;> simp only [shifted] <;> omega

theorem board_shiftcursor_clamps_witness :
    Inb demoFilled demoFilled.curx demoFilled.cury ∧ (0 : Int) ≤ 12 ∧ (12 : Int) < INT_MAX ∧
    (board_shiftcursor demoFilled Direction.RIGHT 12 =
        some (shifted demoFilled Direction.RIGHT 12) ∧
    shifted demoFilled Direction.RIGHT 12 =
      { demoFilled with curx := min (demoFilled.curx + 12) (demoFilled.w - 1) } ∧
    shifted demoFilled Direction.LEFT 12 =
      { demoFilled with curx := max (demoFilled.curx - 12) 0 } ∧
    shifted demoFilled Direction.DOWN 12 =
      { demoFilled with cury := min (demoFilled.cury + 12) (demoFilled.h - 1) } ∧
    shifted demoFilled Direction.UP 12 =
      { demoFilled with cury := max (demoFilled.cury - 12) 0 } ∧
    Inb (shifted demoFilled Direction.RIGHT 12) (shifted demoFilled Direction.RIGHT 12).curx
      (shifted demoFilled Direction.RIGHT 12).cury) :=
  ⟨by unfold Inb; decide, by decide, by decide,
    board_shiftcursor_clamps demoFilled Direction.RIGHT 12 (by unfold Inb; decide) (by decide)
      (by decide)⟩

/-- Claim C13: from the default repeat state, any number of `0` keys, then
    the digits `d1 .. dk` (`k ≤ 9`, `d1 ≥ 1`) and an arrow key make the loop
    call `board_shiftcursor(dir, N)` with `N` the decimal value of
    `d1 .. dk`, and leave the repeat state at its default; `N` is below
    `INT_MAX`, so with the cursor on the board the move is the clamped
    `N`-step move.  With no digit the move is one step. -/
theorem repeat_count_move (bd : Board) (dir : Direction) (z d1 : Nat) (ds : List Nat)
    (h1 : 1 ≤ d1) (hd : ∀ d ∈ d1 :: ds, d ≤ 9) (hk : (d1 :: ds).length ≤ 9) :
    main_knums ⟨1, false⟩ (List.replicate z 0 ++ d1 :: ds) =
      some ⟨decimal (d1 :: ds), true⟩ ∧
    main_digits_move bd (List.replicate z 0 ++ d1 :: ds) dir =
      (board_shiftcursor bd dir (decimal (d1 :: ds))).map (fun b => (b, ⟨1, false⟩)) ∧
    main_digits_move bd [] dir = (board_shiftcursor bd dir 1).map (fun b => (b, ⟨1, false⟩)) ∧
    (Inb bd bd.curx bd.cury →
      main_digits_move bd (List.replicate z 0 ++ d1 :: ds) dir =
        some (shifted bd dir (decimal (d1 :: ds)), ⟨1, false⟩)) := by
  have hd1 : d1 ≤ 9 := hd d1 (List.mem_cons_self _ _)
  have hds : ∀ d ∈ ds, d ≤ 9 := fun x hx => hd x (List.mem_cons_of_mem _ hx)
  have hdec : decimal (d1 :: ds) = decimal_from (d1 : Int) ds := by
    simp [decimal, decimal_from]
  have hrun : main_knums ⟨1, false⟩ (List.replicate z 0 ++ d1 :: ds) =
      some ⟨decimal (d1 :: ds), true⟩ := by
    rw [main_knums_zeros, main_knums, main_knum_first 1 d1 h1, Option.some_bind, hdec]
    exact main_knums_pending ds (d1 : Int) 1 (by omega) (by norm_num; omega)
      (by simp only [List.length_cons] at hk; omega) hds
  have hmove : main_digits_move bd (List.replicate z 0 ++ d1 :: ds) dir =
      (board_shiftcursor bd dir (decimal (d1 :: ds))).map (fun b => (b, ⟨1, false⟩)) := by
    unfold main_digits_move
    rw [hrun, Option.some_bind]
    rfl
  refine ⟨hrun, hmove, rfl, ?_⟩
  intro hc
  have hb := decimal_from_bound ds (d1 : Int) 1 (by omega) (by norm_num; omega) hds
  have hpow : (10 : Int) ^ (1 + ds.length) ≤ 10 ^ 9 :=
    pow_le_pow_right₀ (by norm_num) (by simp only [List.length_cons] at hk; omega)
  have h9 : (10 : Int) ^ 9 = 1000000000 := by norm_num
  have hN : decimal (d1 :: ds) < INT_MAX := by rw [hdec]; unfold INT_MAX; omega
  have hN0 : 0 ≤ decimal (d1 :: ds) := by rw [hdec]; exact hb.1
  rw [hmove, board_shiftcursor_some bd dir _ hc hN0 hN]
  rfl

theorem repeat_count_move_witness :
    1 ≤ 1 ∧ (∀ d ∈ [1, 2], d ≤ 9) ∧ [1, 2].length ≤ 9 ∧
    (main_knums ⟨1, false⟩ (List.replicate 2 0 ++ [1, 2]) = some ⟨decimal [1, 2], true⟩ ∧
    main_digits_move (board_make 9 9 10) (List.replicate 2 0 ++ [1, 2]) Direction.RIGHT =
      (board_shiftcursor (board_make 9 9 10) Direction.RIGHT (decimal [1, 2])).map
        (fun b => (b, ⟨1, false⟩)) ∧
    main_digits_move (board_make 9 9 10) [] Direction.RIGHT =
      (board_shiftcursor (board_make 9 9 10) Direction.RIGHT 1).map
        (fun b => (b, ⟨1, false⟩)) ∧
    (Inb (board_make 9 9 10) (board_make 9 9 10).curx (board_make 9 9 10).cury →
      main_digits_move (board_make 9 9 10) (List.replicate 2 0 ++ [1, 2]) Direction.RIGHT =
        some (shifted (board_make 9 9 10) Direction.RIGHT (decimal [1, 2]), ⟨1, false⟩))) ∧
    decimal [1, 2] = 12 ∧ (shifted (board_make 9 9 10) Direction.RIGHT 12).curx = 8 :=
  ⟨by decide, by decide, by decide,
    repeat_count_move (board_make 9 9 10) Direction.RIGHT 2 1 [2] (by decide) (by decide)
      (by decide),
    by decide, by decide⟩

/-- Claim C14 fails on the code: with the count 214748364 pending (typed as
    the nine digits 2 1 4 7 4 8 3 6 4) the digit 7 resets the count to 1 with
    an alert, although `10 * 214748364 + 7` is exactly `INT_MAX` and does not
    exceed it: the test is `repeat >= (INT_MAX - num) / 10` where
    `repeat > (INT_MAX - num) / 10` is the case that would overflow. -/
theorem repeat_reset_one_early :
    main_knums ⟨1, false⟩ [2, 1, 4, 7, 4, 8, 3, 6, 4] = some ⟨214748364, true⟩ ∧
      main_knum ⟨214748364, true⟩ 7 = some (⟨1, false⟩, true) ∧
      10 * 214748364 + 7 ≤ INT_MAX ∧ (214748364 : Int) ≥ (INT_MAX - 7) / 10 ∧
      ¬ (214748364 : Int) > (INT_MAX - 7) / 10 := by
  decide

/-- Claim C15: the decoding table of `getkey`.  A first byte `'0'..'9'` gives
    `KNUM` with `num = byte - '0'`; `h`, `j`, `k`, `l` give `KARROW` with
    LEFT, DOWN, UP, RIGHT; ESC `[` and then `A`, `B`, `C`, `D` give `KARROW`
    with UP, DOWN, RIGHT, LEFT; any other first byte `c` that is not ESC gives
    `KCHAR` with `ch = c`.  Each call returns one key and leaves the input
    after the 1 or 3 bytes of that key. -/
theorem getkey_table (rest : List Nat) (b c : Nat) (hb : 48 ≤ b ∧ b ≤ 57)
    (hc1 : ¬ (48 ≤ c ∧ c ≤ 57)) (hc2 : c ≠ 27)
    (hc3 : c ≠ 104 ∧ c ≠ 106 ∧ c ≠ 107 ∧ c ≠ 108) :
    getkey (b :: rest) = some (⟨Keytype.KNUM, 0, Direction.UP, b - 48⟩, rest) ∧
    getkey (104 :: rest) = some (⟨Keytype.KARROW, 0, Direction.LEFT, 0⟩, rest) ∧
    getkey (106 :: rest) = some (⟨Keytype.KARROW, 0, Direction.DOWN, 0⟩, rest) ∧
    getkey (107 :: rest) = some (⟨Keytype.KARROW, 0, Direction.UP, 0⟩, rest) ∧
    getkey (108 :: rest) = some (⟨Keytype.KARROW, 0, Direction.RIGHT, 0⟩, rest) ∧
    getkey (27 :: 91 :: 65 :: rest) = some (⟨Keytype.KARROW, 0, Direction.UP, 0⟩, rest) ∧
    getkey (27 :: 91 :: 66 :: rest) = some (⟨Keytype.KARROW, 0, Direction.DOWN, 0⟩, rest) ∧
    getkey (27 :: 91 :: 67 :: rest) = some (⟨Keytype.KARROW, 0, Direction.RIGHT, 0⟩, rest) ∧
    getkey (27 :: 91 :: 68 :: rest) = some (⟨Keytype.KARROW, 0, Direction.LEFT, 0⟩, rest) ∧
    getkey (c :: rest) = some (⟨Keytype.KCHAR, c, Direction.UP, 0⟩, rest) := by
  refine ⟨?_, ?_, ?_, ?_, ?_, ?_, ?_, ?_, ?_, ?_⟩
  · simp [getkey, getkey_aux, key_zero, hb]
  · simp [getkey, getkey_aux, key_zero]
  · simp [getkey, getkey_aux, key_zero]
  · simp [getkey, getkey_aux, key_zero]
  · simp [getkey, getkey_aux, key_zero]
  · simp [getkey, getkey_aux, key_zero]
  · simp [getkey, getkey_aux, key_zero]
  · simp [getkey, getkey_aux, key_zero]
  · simp [getkey, getkey_aux, key_zero]
  · have h1 : ¬ (c ≥ 48 ∧ c ≤ 57) := hc1
    simp only [getkey, getkey_aux, List.length_cons, key_zero, h1, if_false, hc2, ne_eq,
      not_false_eq_true, if_true, hc3.1, hc3.2.1, hc3.2.2.1, hc3.2.2.2]

theorem getkey_table_witness :
    ((48 ≤ 55 ∧ 55 ≤ 57) ∧ ¬ (48 ≤ 32 ∧ 32 ≤ 57) ∧ 32 ≠ 27 ∧
      (32 ≠ 104 ∧ 32 ≠ 106 ∧ 32 ≠ 107 ∧ 32 ≠ 108)) ∧
    (getkey (55 :: [113]) = some (⟨Keytype.KNUM, 0, Direction.UP, 55 - 48⟩, [113]) ∧
    getkey (104 :: [113]) = some (⟨Keytype.KARROW, 0, Direction.LEFT, 0⟩, [113]) ∧
    getkey (106 :: [113]) = some (⟨Keytype.KARROW, 0, Direction.DOWN, 0⟩, [113]) ∧
    getkey (107 :: [113]) = some (⟨Keytype.KARROW, 0, Direction.UP, 0⟩, [113]) ∧
    getkey (108 :: [113]) = some (⟨Keytype.KARROW, 0, Direction.RIGHT, 0⟩, [113]) ∧
    getkey (27 :: 91 :: 65 :: [113]) = some (⟨Keytype.KARROW, 0, Direction.UP, 0⟩, [113]) ∧
    getkey (27 :: 91 :: 66 :: [113]) = some (⟨Keytype.KARROW, 0, Direction.DOWN, 0⟩, [113]) ∧
    getkey (27 :: 91 :: 67 :: [113]) = some (⟨Keytype.KARROW, 0, Direction.RIGHT, 0⟩, [113]) ∧
    getkey (27 :: 91 :: 68 :: [113]) = some (⟨Keytype.KARROW, 0, Direction.LEFT, 0⟩, [113]) ∧
    getkey (32 :: [113]) = some (⟨Keytype.KCHAR, 32, Direction.UP, 0⟩, [113])) :=
  ⟨by decide, getkey_table [113] 55 32 (by decide) (by decide) (by decide) (by decide)⟩

/-- After ESC a byte `c` other than `[` is returned as `KCHAR` with `ch = c`,
    whatever `c` is (a digit or `h`, `j`, `k`, `l` included); it is pushed
    back, so that the input left begins with `c`, for every `c` but 255. -/
theorem getkey_esc_pushback (c : Nat) (rest : List Nat) (hc : c ≠ 91) :
    (c ≠ 255 →
      getkey (27 :: c :: rest) = some (⟨Keytype.KCHAR, c, Direction.UP, 0⟩, c :: rest)) ∧
    (c = 255 →
      getkey (27 :: c :: rest) = some (⟨Keytype.KCHAR, c, Direction.UP, 0⟩, rest)) := by
  constructor
  · intro h
    simp [getkey, getkey_aux, key_zero, hc, h]
  · intro h
    subst h
    simp [getkey, getkey_aux, key_zero]

/-- Claim C16 fails on the code for the byte 255: on the input ESC, 255, `q`
    `getkey` returns `KCHAR` with `ch = 255` but pushes nothing back (the
    `char` holds `-1`, which is `EOF`, and `ungetc` fails), so the input left
    is `q` alone and does not begin with the byte read. -/
theorem getkey_esc_ff_not_pushed :
    (255 : Nat) ≠ 91 ∧
      getkey [27, 255, 113] = some (⟨Keytype.KCHAR, 255, Direction.UP, 0⟩, [113]) ∧
      getkey [27, 255, 113] ≠ some (⟨Keytype.KCHAR, 255, Direction.UP, 0⟩, [255, 113]) ∧
      getkey [27, 104, 113] = some (⟨Keytype.KCHAR, 104, Direction.UP, 0⟩, [104, 113]) := by
  decide

/-- Claim C17: on input ESC `[` followed by bytes `pre` outside 64..126, a
    byte `f` inside 64..126 and the bytes `tail`, where the first byte after
    `[` is none of `A`, `B`, `C`, `D`, `getkey` drops everything up to and
    including `f` and returns what `getkey` returns on `tail`: the same key,
    the same input left, and nothing when `tail` holds no complete key. -/
theorem getkey_skips_unknown (pre : List Nat) (f : Nat) (tail : List Nat)
    (hpre : ∀ b ∈ pre, b < 64 ∨ b > 126) (hf : 64 ≤ f ∧ f ≤ 126)
    (hd : ∀ d, (pre ++ f :: tail).head? = some d → d ≠ 65 ∧ d ≠ 66 ∧ d ≠ 67 ∧ d ≠ 68) :
    getkey (27 :: 91 :: (pre ++ f :: tail)) = getkey tail := by
  have key : ∀ (c3 : Nat) (s3 : List Nat), pre ++ f :: tail = c3 :: s3 →
      skip_unknown s3 c3 = some tail := by
    intro c3 s3 h
    cases pre with
    | nil =>
      simp only [List.nil_append, List.cons.injEq] at h
      obtain ⟨rfl, rfl⟩ := h
      have hnf : ¬ (f < 64 ∨ f > 126) := by omega
      cases tail with
      | nil => simp [skip_unknown, hnf]
      | cons t ts => simp [skip_unknown, hnf]
    | cons p ps =>
      simp only [List.cons_append, List.cons.injEq] at h
      obtain ⟨rfl, rfl⟩ := h
      exact skip_unknown_split f tail hf ps p (hpre p (List.mem_cons_self _ _))
        (fun b hb => hpre b (List.mem_cons_of_mem _ hb))
  cases hs : pre ++ f :: tail with
  | nil => cases pre <;> simp at hs
  | cons c3 s3 =>
    have hsk := key c3 s3 hs
    have hne := hd c3 (by rw [hs]; rfl)
    have hlen : tail.length ≤ s3.length := skip_unknown_length s3 c3 tail hsk
    unfold getkey
    simp only [List.length_cons]
    rw [getkey_aux]
    simp only [show ¬ (27 ≥ 48 ∧ 27 ≤ 57) by decide, if_false, ne_eq, not_true_eq_false,
      hne.1, hne.2.1, hne.2.2.1, hne.2.2.2, hsk, Option.some_bind]
    exact getkey_aux_stable _ tail (by omega) _ (by omega)

theorem getkey_skips_unknown_witness :
    (∀ b ∈ [49, 59, 53], b < 64 ∨ b > 126) ∧ (64 ≤ 126 ∧ 126 ≤ 126) ∧
    (∀ d, ([49, 59, 53] ++ 126 :: [104, 5]).head? = some d →
      d ≠ 65 ∧ d ≠ 66 ∧ d ≠ 67 ∧ d ≠ 68) ∧
    getkey (27 :: 91 :: ([49, 59, 53] ++ 126 :: [104, 5])) = getkey [104, 5] ∧
    getkey [104, 5] = some (⟨Keytype.KARROW, 0, Direction.LEFT, 0⟩, [5]) :=
  ⟨by decide, by decide, by simp,
    getkey_skips_unknown [49, 59, 53] 126 [104, 5] (by decide) (by decide) (by simp),
    by decide⟩

/-- Claim C18: on every well-formed board and for every on-board seed (open
    or closed) `board_flood` terminates: with any recursion bound of at least
    the number of cells it returns the same board.  When the seed is closed,
    the number of closed cells strictly decreases and `nopen` grows by
    exactly the number of cells that went from closed to open: every call
    opens a cell that was closed, and no cell is opened twice. -/
theorem board_flood_terminates (bd : Board) (x y : Int) (hw : WF bd) (hb : Inb bd x y) :
    ∃ bd', (∀ fuel, bd.data.length ≤ fuel → board_flood_aux fuel bd x y = some bd') ∧
      board_flood bd x y = some bd' ∧
      ((bd.cell (bd.w * y + x)).open_ = false →
        closedCount bd' < closedCount bd ∧
        bd'.nopen - bd.nopen = (closedCount bd : Int) - (closedCount bd' : Int)) := by
  obtain ⟨bd', hf, -⟩ := board_flood_any_seed bd x y hw hb
  refine ⟨bd', fun fuel hle => board_flood_aux_le _ fuel hle bd x y bd' hf, hf, ?_⟩
  intro hc
  have F := flood_aux_ok _ bd x y bd' hw hb hc hf
  have h1 := closed_add_open bd
  have h2 := closed_add_open bd'
  have h3 := F.opens.len
  have h4 := F.grow
  have h5 := F.opens.nopen
  omega

theorem board_flood_terminates_witness :
    WF demoFilled ∧ Inb demoFilled 2 0 ∧
    ∃ bd', (∀ fuel, demoFilled.data.length ≤ fuel →
        board_flood_aux fuel demoFilled 2 0 = some bd') ∧
      board_flood demoFilled 2 0 = some bd' ∧
      ((demoFilled.cell (demoFilled.w * 0 + 2)).open_ = false →
        closedCount bd' < closedCount demoFilled ∧
        bd'.nopen - demoFilled.nopen =
          (closedCount demoFilled : Int) - (closedCount bd' : Int)) :=
  ⟨by unfold WF; decide, by unfold Inb; decide,
    board_flood_terminates demoFilled 2 0 (by unfold WF; decide) (by unfold Inb; decide)⟩

/-- Claim C19: on a well-formed board whose counts are right, `board_flood`
    from an on-board seed that is not a mine never opens a mine: every mine
    keeps its open state.  Hence in every board reachable from a fresh board
    no mine is open. -/
theorem flood_never_opens_mine (bd : Board) (x y : Int) (bd' : Board) (w h nbombs : Int)
    (r : Board) (hw : WF bd) (hco : CountsOK bd) (hb : Inb bd x y)
    (hm : (bd.cell (bd.w * y + x)).bomb = false) (hf : board_flood bd x y = some bd')
    (hw0 : 0 < w) (hh0 : 0 < h) (hr : Reachable w h nbombs r) :
    (∀ j, (bd.cell j).bomb = true →
      (bd'.cell j).bomb = true ∧ (bd'.cell j).open_ = (bd.cell j).open_) ∧
    (∀ j, (r.cell j).open_ = true → (r.cell j).bomb = false) := by
  refine ⟨?_, (hr.inv hw0 hh0).safe⟩
  obtain ⟨b2, hf2, F⟩ := board_flood_any_seed bd x y hw hb
  rw [hf] at hf2
  simp only [Option.some.injEq] at hf2
  subst hf2
  have hrg := idx_range hw hb
  have hfr := setCell_frame bd (bd.w * y + x) ⟨false, (bd.cell (bd.w * y + x)).bomb,
    (bd.cell (bd.w * y + x)).flag, (bd.cell (bd.w * y + x)).count⟩
  have hcell : ∀ j, (Board.cell (bd.setCell (bd.w * y + x)
      ⟨false, (bd.cell (bd.w * y + x)).bomb, (bd.cell (bd.w * y + x)).flag,
        (bd.cell (bd.w * y + x)).count⟩) j) =
      if j = bd.w * y + x ∧ 0 ≤ bd.w * y + x ∧ bd.w * y + x < bd.data.length
        then ⟨false, (bd.cell (bd.w * y + x)).bomb, (bd.cell (bd.w * y + x)).flag,
          (bd.cell (bd.w * y + x)).count⟩
        else bd.cell j := fun j => cell_setCell bd _ j _
  generalize bd.setCell (bd.w * y + x) ⟨false, (bd.cell (bd.w * y + x)).bomb,
    (bd.cell (bd.w * y + x)).flag, (bd.cell (bd.w * y + x)).count⟩ = bc at F hfr hcell
  have hbomb : ∀ j, (bc.cell j).bomb = (bd.cell j).bomb := by
    intro j; rw [hcell]; split
    · rename_i hj; rw [hj.1]
    · rfl
  have hcount : ∀ j, (bc.cell j).count = (bd.cell j).count := by
    intro j; rw [hcell]; split
    · rename_i hj; rw [hj.1]
    · rfl
  have hwc : WF bc := hfr.frame_wf hw
  have hcoc : CountsOK bc := CountsOK_congr hfr.1 hfr.2.1 hbomb hcount hco
  have hmc : (bc.cell (bc.w * y + x)).bomb = false := by rw [hfr.1, hbomb]; exact hm
  intro j hj
  refine ⟨by rw [F.opens.bomb, hbomb]; exact hj, ?_⟩
  have hne : j ≠ bd.w * y + x := by
    intro he; rw [he, hm] at hj; exact absurd hj (by simp)
  have hsame : bc.cell j = bd.cell j := by rw [hcell]; simp [hne]
  rw [← hsame]
  cases ho : (bc.cell j).open_
  · cases ho' : (bd'.cell j).open_
    · rfl
    · exfalso
      by_cases hrj : 0 ≤ j ∧ j < bc.data.length
      · obtain ⟨cx, cy, hcb, rfl⟩ := pos_coords hwc hrj.1 hrj.2
        have hnm := (F.sound cx cy hcb ⟨ho, ho'⟩).no_mine hcoc hmc
        rw [hbomb, hj] at hnm
        exact absurd hnm (by simp)
      · have : (bd.cell j).bomb = false := by
          rw [← hbomb, cell_out bc j hrj]; rfl
        rw [hj] at this
        exact absurd this (by simp)
  · exact F.opens.mono j ho

theorem flood_never_opens_mine_witness :
    WF demoFilled ∧ Inb demoFilled 2 0 ∧
    (demoFilled.cell (demoFilled.w * 0 + 2)).bomb = false ∧ (0 : Int) < 3 ∧
    Reachable 3 3 1 demoStale ∧
    ((∀ j, (demoFilled.cell j).bomb = true →
      (((board_flood demoFilled 2 0).get (by decide)).cell j).bomb = true ∧
      (((board_flood demoFilled 2 0).get (by decide)).cell j).open_ =
        (demoFilled.cell j).open_) ∧
    (∀ j, (demoStale.cell j).open_ = true → (demoStale.cell j).bomb = false)) :=
  ⟨by unfold WF; decide, by unfold Inb; decide, by decide, by decide,
    Reachable.opened _ [8] 5 false demoStale
      (Reachable.shift _ Direction.RIGHT 1 _ (Reachable.flag _ Reachable.fresh) rfl)
      (by decide) (by decide),
    flood_never_opens_mine demoFilled 2 0 ((board_flood demoFilled 2 0).get (by decide)) 3 3 1
      demoStale (by unfold WF; decide)
      (by
        intro cx cy hcb
        unfold Inb at hcb
        have hx : cx = 0 ∨ cx = 1 ∨ cx = 2 := by
          have h1 : demoFilled.w = 3 := rfl
          omega
        have hy : cy = 0 ∨ cy = 1 ∨ cy = 2 := by
          have h1 : demoFilled.h = 3 := rfl
          omega
        rcases hx with rfl | rfl | rfl <;> rcases hy with rfl | rfl | rfl <;> decide)
      (by unfold Inb; decide) (by decide) (Option.some_get _).symm (by decide) (by decide)
      (Reachable.opened _ [8] 5 false demoStale
        (Reachable.shift _ Direction.RIGHT 1 _ (Reachable.flag _ Reachable.fresh) rfl)
        (by decide) (by decide))⟩

/-- Claim C20 fails on the code from one hour on: for 3661 seconds
    `formatTime` prints the fields 1, 61, 1 ("01:61:01"): the minutes field
    is the whole number of minutes, not reduced below 60, and the fields do
    not decode back to the input. -/
theorem formatTime_minutes_not_reduced :
    formatTime 3661 = [1, 61, 1] ∧ ¬ ((61 : Int) < 60) ∧
      (1 * 3600 + 61 * 60 + 1 : Int) ≠ 3661 := by
  decide

end Msweep
